import Mathlib

/-!
# Verification of the fact-graph-clustering data representation layer

This file gives a shallow embedding, in Lean 4, of the core data structures of the
fact-graph-clustering repository, and proves the testable properties stated in its
specification.

Embedded components (source file in parentheses):
* IndexTrie, the bijective indexable trie (src/graph/index_trie.rs): Node, insertInner,
  getStrInner (impl Key for &str), getIdxInner (impl Key for usize), the iterator
  denotation nodesStrings.
* LowerTriangular, the packed symmetric matrix (src/graph/lower_triangular.rs).
* AMGraph, the fixed-vocabulary adjacency-matrix graph (src/graph/adj_matrix.rs),
  with its Edges iterator.
* vectorize and the term-pair column mapping (src/clustering.rs).
* The centroid-update step of the custom k-means (src/clustering/kmeans.rs).

Modelling conventions:
* Rust u8 bytes are modelled as Nat (the code only compares bytes, never does
  arithmetic on them, so the embedding is faithful on the byte range).
* Rust strings and byte vectors are List Nat.
* Rust usize is Nat; no usize overflow is reachable in the embedded code paths.
* Fallible operations return Option or Except Unit; Rust panics (out-of-range raw
  matrix indexing, unwrap) are totalised with default values and are unreachable
  under the well-formedness invariants proved below.
* Lazy iterators are embedded by their produced sequences (for the trie iterator this
  is the depth-first concatenation of ancestor prefixes with each leaf suffix, which
  is exactly what IndexTrieIterator::next yields step by step; for the Edges iterator
  the loop of Edges::next is embedded as a recursive function on its row/col state).
* f32 edge-weight values carry no arithmetic inside vectorize (they are only stored),
  so the embedding is generic over the weight type with an abstract numeric
  conversion into the rationals; the k-means centroid arithmetic is modelled with
  exact rational arithmetic.
-/

/-! ## Byte and byte-string comparison

Rust compares u8 with Ord::cmp and Vec of u8 lexicographically; byteCmp and lexCmp
are those comparisons on the Nat model. -/

/-- Comparison of two bytes, as Rust Ord::cmp on u8. -/
def byteCmp (a b : Nat) : Ordering :=
  if a < b then .lt else if a = b then .eq else .gt

/-- Lexicographic comparison of byte strings, as Rust Ord::cmp on Vec of u8:
elementwise, with the shorter string smaller when it is a prefix of the longer. -/
def lexCmp : List Nat → List Nat → Ordering
  | [], [] => .eq
  | [], _ :: _ => .lt
  | _ :: _, [] => .gt
  | a :: as, b :: bs =>
    match byteCmp a b with
    | .eq => lexCmp as bs
    | o => o

/-- Length of the longest common prefix of two byte strings
(common_prefix in src/graph/index_trie.rs). -/
def commonPfx : List Nat → List Nat → Nat
  | a :: as, b :: bs => if a = b then commonPfx as bs + 1 else 0
  | _, _ => 0

/-! ## The indexable trie (src/graph/index_trie.rs) -/

/-- A non-root node of the trie (enum Node in src/graph/index_trie.rs).
nonLeaf stores a byte prefix, the ordered child list, and the number of leaves in
its subtree; leaf stores the remaining suffix after all ancestor prefixes. -/
inductive Node where
  | leaf (rest : List Nat)
  | nonLeaf (pfx : List Nat) (children : List Node) (len : Nat)

/-- Node::len: subtree leaf count metadata (1 for a leaf). -/
def Node.nodeLen : Node → Nat
  | .leaf _ => 1
  | .nonLeaf _ _ len => len

mutual
/-- The strings represented by one node: every leaf suffix in its subtree, prefixed
with the prefixes of the nodes on the path. This is the sequence the trie iterator
(IndexTrieIterator::next) produces for the subtree, in document order. -/
def nodeStrings : Node → List (List Nat)
  | .leaf rest => [rest]
  | .nonLeaf pfx children _ => (nodesStrings children).map (pfx ++ ·)

/-- The strings represented by a sibling list, in document order. -/
def nodesStrings : List Node → List (List Nat)
  | [] => []
  | n :: ns => nodeStrings n ++ nodesStrings ns
end

/-- insert_inner in IndexTrie::insert. The Rust in-place loop over the sibling
vector is written as recursion over the list: each iteration either acts on the
head node (split it, recurse into it, or insert a new leaf before it) or keeps the
head and continues with the tail; falling off the end pushes a new leaf. Returns
the updated sibling list and whether the key was newly added. -/
def insertInner : List Node → List Nat → List Node × Bool
  | vec, [] =>
    -- An empty key needs an empty leaf, which can only be the first element.
    match vec with
    | Node.leaf [] :: _ => (vec, false)
    | _ => (Node.leaf [] :: vec, true)
  | [], k => ([Node.leaf k], true)
  | Node.leaf rest :: ns, kh :: kt =>
    match rest with
    | [] =>
      -- A non-empty key never matches the empty leaf; continue.
      let r := insertInner ns (kh :: kt)
      (Node.leaf rest :: r.1, r.2)
    | rh :: _ =>
      match byteCmp kh rh with
      | .gt =>
        let r := insertInner ns (kh :: kt)
        (Node.leaf rest :: r.1, r.2)
      | .eq =>
        let k := kh :: kt
        let c := commonPfx k rest
        if k.length = c ∧ rest.length = c then
          -- The key equals this leaf: already contained.
          (Node.leaf rest :: ns, false)
        else
          -- Split the leaf: the common part becomes a prefix node over two leaves
          -- holding the divergent remainders, the empty remainder first.
          let fs : List Nat × List Nat :=
            if k.length = c then ([], rest.drop c)
            else if rest.length = c then ([], k.drop c)
            else if k.getD c 0 < rest.getD c 0 then (k.drop c, rest.drop c)
            else (rest.drop c, k.drop c)
          (Node.nonLeaf (rest.take c) [Node.leaf fs.1, Node.leaf fs.2] 2 :: ns, true)
      | .lt => (Node.leaf (kh :: kt) :: Node.leaf rest :: ns, true)
  | Node.nonLeaf pfx children len :: ns, kh :: kt =>
    match pfx with
    | [] =>
      -- Unreachable under the trie invariant (prefixes are non-empty); the Rust
      -- code would index prefix[0] here. Behaviour at this junk case is irrelevant
      -- to every theorem below, all of which assume well-formedness.
      (Node.nonLeaf pfx children len :: ns, false)
    | ph :: _ =>
      match byteCmp kh ph with
      | .gt =>
        let r := insertInner ns (kh :: kt)
        (Node.nonLeaf pfx children len :: r.1, r.2)
      | .eq =>
        let k := kh :: kt
        let c := commonPfx k pfx
        if pfx.length = c then
          -- The key lives under this node: recurse, bumping len on success.
          let r := insertInner children (k.drop c)
          (Node.nonLeaf pfx r.1 (if r.2 then len + 1 else len) :: ns, r.2)
        else
          -- Split the node: its prefix is truncated to the common part, its old
          -- children demoted under a new prefix node, plus a new leaf for the key.
          let leafN := Node.leaf (k.drop c)
          let nonleafN := Node.nonLeaf (pfx.drop c) children len
          let newChildren :=
            if k.length = c ∨ k.getD c 0 < pfx.getD c 0 then [leafN, nonleafN]
            else [nonleafN, leafN]
          (Node.nonLeaf (pfx.take c) newChildren (len + 1) :: ns, true)
      | .lt => (Node.leaf (kh :: kt) :: Node.nonLeaf pfx children len :: ns, true)

/-- struct IndexTrie: the top-level sibling list plus the stored string count. -/
structure IndexTrie where
  roots : List Node
  len : Nat

/-- IndexTrie::new. -/
def IndexTrie.new : IndexTrie := ⟨[], 0⟩

/-- IndexTrie::insert: runs insert_inner on the roots and bumps len on success. -/
def IndexTrie.insert (t : IndexTrie) (k : List Nat) : IndexTrie × Bool :=
  let r := insertInner t.roots k
  (⟨r.1, if r.2 then t.len + 1 else t.len⟩, r.2)

/-- get_inner of impl Key for &str: string to rank. Nodes passed over contribute
their subtree size to the running offset i. -/
def getStrInner : List Node → List Nat → Nat → Option Nat
  | [], _, _ => none
  | Node.leaf rest :: ns, k, i =>
    match lexCmp k rest with
    | .gt => getStrInner ns k (i + 1)
    | .eq => some i
    | .lt => none
  | Node.nonLeaf pfx children len :: ns, k, i =>
    match lexCmp (k.take (min k.length pfx.length)) pfx with
    | .gt => getStrInner ns k (i + len)
    | .eq => getStrInner children (k.drop pfx.length) i
    | .lt => none

/-- get_inner of impl Key for usize: rank to string. The output buffer collects
prefixes on the path down; skipped nodes reduce the residual rank. -/
def getIdxInner : List Node → Nat → List Nat → Option (List Nat)
  | [], _, _ => none
  | Node.leaf rest :: ns, i, buf =>
    if i = 0 then some (buf ++ rest) else getIdxInner ns (i - 1) buf
  | Node.nonLeaf pfx children len :: ns, i, buf =>
    if len ≤ i then getIdxInner ns (i - len) buf
    else getIdxInner children i (buf ++ pfx)

/-- IndexTrie::get with a string key (impl Key for &str). -/
def IndexTrie.getStr (t : IndexTrie) (k : List Nat) : Option Nat :=
  getStrInner t.roots k 0

/-- IndexTrie::get with a rank key (impl Key for usize). -/
def IndexTrie.getIdx (t : IndexTrie) (i : Nat) : Option (List Nat) :=
  getIdxInner t.roots i []

/-- The sequence of strings produced by iterating the trie
(impl Iterator for IndexTrieIterator). -/
def IndexTrie.strings (t : IndexTrie) : List (List Nat) :=
  nodesStrings t.roots

/-- Building a trie by a sequence of insertions into an empty trie
(as in FromIterator for IndexTrie). -/
def buildTrie (ws : List (List Nat)) : IndexTrie :=
  ws.foldl (fun t w => (t.insert w).1) IndexTrie.new

/-! ## The trie well-formedness invariant

These predicates capture the documented structural invariants of the trie: prefix
nodes have a non-empty prefix and correct subtree-size metadata, and sibling lists
are ordered by (necessarily distinct) first bytes, an empty leaf first. -/

/-- The first byte of the content a node was keyed on: the leading byte of a leaf
suffix or of a prefix node. none is the empty leaf. -/
def headByte : Node → Option Nat
  | .leaf rest => rest.head?
  | .nonLeaf pfx _ _ => pfx.head?

/-- Sibling order on leading bytes: the empty leaf (none) comes strictly first,
and byte-headed nodes are in strictly increasing byte order. -/
def hbLt : Option Nat → Option Nat → Prop
  | none, some _ => True
  | some a, some b => a < b
  | _, none => False

/-- The sibling-chain condition between a node and the next sibling, if any. -/
def chainHead (n : Node) : List Node → Prop
  | [] => True
  | m :: _ => hbLt (headByte n) (headByte m)

mutual
/-- Well-formedness of a single node: a prefix node has a non-empty prefix, its
len metadata counts the strings of its subtree, and its child list is well-formed. -/
def NodeWF : Node → Prop
  | .leaf _ => True
  | .nonLeaf pfx children len =>
    pfx ≠ [] ∧ len = (nodesStrings children).length ∧ NodesWF children

/-- Well-formedness of a sibling list: each node well-formed and adjacent leading
bytes strictly increasing (empty leaf first). -/
def NodesWF : List Node → Prop
  | [] => True
  | n :: ns => NodeWF n ∧ chainHead n ns ∧ NodesWF ns
end

/-- Well-formedness of a whole trie: well-formed roots and a correct stored count. -/
def TrieWF (t : IndexTrie) : Prop :=
  NodesWF t.roots ∧ t.len = (nodesStrings t.roots).length

/-- Insertion of a string into a strictly sorted list of strings, as a reference
model for the trie contents: keys already present are left in place. -/
def sortedInsert (k : List Nat) : List (List Nat) → List (List Nat)
  | [] => [k]
  | s :: ss =>
    match lexCmp k s with
    | .lt => k :: s :: ss
    | .eq => s :: ss
    | .gt => s :: sortedInsert k ss

/-! ## Basic facts about the comparisons -/

theorem byteCmp_eq_iff {a b : Nat} : byteCmp a b = .eq ↔ a = b := by
  unfold byteCmp; split_ifs <;> simp_all
  omega

theorem byteCmp_lt_iff {a b : Nat} : byteCmp a b = .lt ↔ a < b := by
  unfold byteCmp; split_ifs <;> simp_all

theorem byteCmp_gt_iff {a b : Nat} : byteCmp a b = .gt ↔ b < a := by
  unfold byteCmp; split_ifs <;> simp_all <;> omega

theorem byteCmp_swap (a b : Nat) : (byteCmp a b).swap = byteCmp b a := by
  unfold byteCmp
  rcases Nat.lt_trichotomy a b with h | h | h
  · simp [h, show ¬ b < a by omega, show b ≠ a by omega, Ordering.swap]
  · simp [h, show ¬ b < b by omega, Ordering.swap]
  · simp [h, show ¬ a < b by omega, show a ≠ b by omega, Ordering.swap]

theorem lexCmp_eq_iff : ∀ {a b : List Nat}, lexCmp a b = .eq ↔ a = b
  | [], [] => by simp [lexCmp]
  | [], _ :: _ => by simp [lexCmp]
  | _ :: _, [] => by simp [lexCmp]
  | a :: as, b :: bs => by
    simp only [lexCmp]
    cases h : byteCmp a b with
    | eq => simp [lexCmp_eq_iff, byteCmp_eq_iff.mp h]
    | lt =>
      have : a ≠ b := by have := byteCmp_lt_iff.mp h; omega
      simp [this]
    | gt =>
      have : a ≠ b := by have := byteCmp_gt_iff.mp h; omega
      simp [this]

theorem lexCmp_self (a : List Nat) : lexCmp a a = .eq := lexCmp_eq_iff.mpr rfl

theorem lexCmp_swap : ∀ (a b : List Nat), (lexCmp a b).swap = lexCmp b a
  | [], [] => rfl
  | [], _ :: _ => rfl
  | _ :: _, [] => rfl
  | a :: as, b :: bs => by
    simp only [lexCmp]
    cases h : byteCmp a b with
    | eq =>
      have hba : byteCmp b a = .eq := by
        rw [byteCmp_eq_iff] at h ⊢; omega
      rw [hba]; exact lexCmp_swap as bs
    | lt =>
      have hba : byteCmp b a = .gt := by rw [← byteCmp_swap, h]; rfl
      rw [hba]; rfl
    | gt =>
      have hba : byteCmp b a = .lt := by rw [← byteCmp_swap, h]; rfl
      rw [hba]; rfl

theorem lexCmp_gt_iff_lt {a b : List Nat} : lexCmp a b = .gt ↔ lexCmp b a = .lt := by
  rw [← lexCmp_swap a b]
  cases lexCmp a b <;> simp [Ordering.swap]

theorem lexCmp_lt_trans :
    ∀ {a b c : List Nat}, lexCmp a b = .lt → lexCmp b c = .lt → lexCmp a c = .lt
  | [], _ :: _, _ :: _, _, _ => rfl
  | [], [], _, h, _ => by simp [lexCmp] at h
  | _ :: _, [], _, h, _ => by simp [lexCmp] at h
  | _ :: _, _ :: _, [], _, h => by simp [lexCmp] at h
  | a :: as, b :: bs, c :: cs, hab, hbc => by
    simp only [lexCmp] at hab hbc ⊢
    cases h1 : byteCmp a b with
    | eq =>
      rw [h1] at hab
      have hab' : a = b := byteCmp_eq_iff.mp h1
      cases h2 : byteCmp b c with
      | eq =>
        rw [h2] at hbc
        have : byteCmp a c = .eq := by
          rw [byteCmp_eq_iff] at h2 ⊢; omega
        rw [this]; exact lexCmp_lt_trans hab hbc
      | lt =>
        have : byteCmp a c = .lt := by
          rw [byteCmp_lt_iff] at h2 ⊢; omega
        rw [this]
      | gt => rw [h2] at hbc; simp at hbc
    | lt =>
      have h1' := byteCmp_lt_iff.mp h1
      cases h2 : byteCmp b c with
      | eq =>
        have h2' := byteCmp_eq_iff.mp h2
        have : byteCmp a c = .lt := byteCmp_lt_iff.mpr (by omega)
        rw [this]
      | lt =>
        have h2' := byteCmp_lt_iff.mp h2
        have : byteCmp a c = .lt := byteCmp_lt_iff.mpr (by omega)
        rw [this]
      | gt => rw [h2] at hbc; simp at hbc
    | gt => rw [h1] at hab; simp at hab

theorem lexCmp_append_left : ∀ (p a b : List Nat), lexCmp (p ++ a) (p ++ b) = lexCmp a b
  | [], _, _ => rfl
  | h :: t, a, b => by
    simp only [List.cons_append, lexCmp, byteCmp_eq_iff.mpr rfl]
    exact lexCmp_append_left t a b

theorem lexCmp_nil_lt {a : List Nat} (h : a ≠ []) : lexCmp [] a = .lt := by
  cases a with
  | nil => exact absurd rfl h
  | cons x xs => rfl

theorem lexCmp_cons_ne {x y : Nat} (xs ys : List Nat) (h : x ≠ y) :
    lexCmp (x :: xs) (y :: ys) = byteCmp x y := by
  simp only [lexCmp]
  cases hc : byteCmp x y with
  | eq => exact absurd (byteCmp_eq_iff.mp hc) h
  | lt => rfl
  | gt => rfl

theorem lexCmp_of_take_eq {a b : List Nat} (c : Nat) (h : a.take c = b.take c) :
    lexCmp a b = lexCmp (a.drop c) (b.drop c) := by
  conv_lhs => rw [← List.take_append_drop c a, ← List.take_append_drop c b, ← h]
  exact lexCmp_append_left _ _ _

theorem commonPfx_le_left : ∀ a b : List Nat, commonPfx a b ≤ a.length
  | [], _ => Nat.le_refl 0
  | _ :: _, [] => by simp [commonPfx]
  | a :: as, b :: bs => by
    simp only [commonPfx]
    split_ifs
    · simpa using commonPfx_le_left as bs
    · simp

theorem commonPfx_le_right : ∀ a b : List Nat, commonPfx a b ≤ b.length
  | [], _ => by simp [commonPfx]
  | _ :: _, [] => by simp [commonPfx]
  | a :: as, b :: bs => by
    simp only [commonPfx]
    split_ifs
    · simpa using commonPfx_le_right as bs
    · simp

theorem commonPfx_take_eq : ∀ a b : List Nat,
    a.take (commonPfx a b) = b.take (commonPfx a b)
  | [], _ => by simp [commonPfx]
  | _ :: _, [] => by simp [commonPfx]
  | a :: as, b :: bs => by
    simp only [commonPfx]
    split_ifs with hab
    · simp [List.take_succ_cons, hab, commonPfx_take_eq as bs]
    · simp

theorem commonPfx_getD_ne : ∀ a b : List Nat,
    commonPfx a b < a.length → commonPfx a b < b.length →
    a.getD (commonPfx a b) 0 ≠ b.getD (commonPfx a b) 0
  | [], _, ha, _ => by simp at ha
  | _ :: _, [], _, hb => by simp at hb
  | a :: as, b :: bs, ha, hb => by
    simp only [commonPfx] at *
    split_ifs at * with hab
    · simpa using commonPfx_getD_ne as bs (by simpa using ha) (by simpa using hb)
    · simpa using hab

theorem commonPfx_cons_pos {a b : Nat} {as bs : List Nat} (h : a = b) :
    0 < commonPfx (a :: as) (b :: bs) := by
  simp [commonPfx, h]

/-! ## Head bytes and sortedness of trie contents -/

/-- Strict lexicographic order on byte strings. -/
def lexLt (a b : List Nat) : Prop := lexCmp a b = .lt

theorem lexLt_irrefl (a : List Nat) : ¬ lexLt a a := by
  simp [lexLt, lexCmp_self]

theorem lexLt_trans {a b c : List Nat} : lexLt a b → lexLt b c → lexLt a c :=
  lexCmp_lt_trans

theorem lexLt_ne {a b : List Nat} (h : lexLt a b) : a ≠ b := by
  intro he
  exact lexLt_irrefl a (he ▸ h)

theorem hbLt_trans {a b c : Option Nat} (h1 : hbLt a b) (h2 : hbLt b c) : hbLt a c := by
  cases a <;> cases b <;> cases c <;> simp_all [hbLt]
  omega

theorem lexLt_of_hbLt {s t : List Nat} (h : hbLt s.head? t.head?) : lexLt s t := by
  cases s with
  | nil =>
    cases t with
    | nil => simp [hbLt] at h
    | cons y ys => simp [lexLt, lexCmp]
  | cons x xs =>
    cases t with
    | nil => simp [hbLt] at h
    | cons y ys =>
      simp only [List.head?_cons, hbLt] at h
      simp [lexLt, lexCmp_cons_ne _ _ (Nat.ne_of_lt h), byteCmp_lt_iff.mpr h]

theorem nodeWF_nonLeaf_iff {pfx : List Nat} {children : List Node} {len : Nat} :
    NodeWF (.nonLeaf pfx children len) ↔
      pfx ≠ [] ∧ len = (nodesStrings children).length ∧ NodesWF children := by
  rw [NodeWF]

theorem nodesWF_cons_iff {n : Node} {ns : List Node} :
    NodesWF (n :: ns) ↔ NodeWF n ∧ chainHead n ns ∧ NodesWF ns := by
  rw [NodesWF]

theorem head?_mem_nodeStrings {n : Node} (hWF : NodeWF n) {s : List Nat}
    (hs : s ∈ nodeStrings n) : s.head? = headByte n := by
  cases n with
  | leaf rest =>
    simp only [nodeStrings, List.mem_singleton] at hs
    simp [hs, headByte]
  | nonLeaf pfx children len =>
    simp only [nodeStrings, List.mem_map] at hs
    obtain ⟨t, _, rfl⟩ := hs
    obtain ⟨hpfx, -, -⟩ := nodeWF_nonLeaf_iff.mp hWF
    cases pfx with
    | nil => exact absurd rfl hpfx
    | cons p ps => simp [headByte]

theorem hbLt_headByte_of_mem_tail :
    ∀ {n : Node} {ns : List Node}, NodesWF (n :: ns) → ∀ {s : List Nat},
      s ∈ nodesStrings ns → hbLt (headByte n) s.head?
  | _, [], _, _, hs => by simp [nodesStrings] at hs
  | n, m :: ms, hWF, s, hs => by
    obtain ⟨hn, hchain, hWFtail⟩ := nodesWF_cons_iff.mp hWF
    obtain ⟨hm, -, -⟩ := nodesWF_cons_iff.mp hWFtail
    simp only [chainHead] at hchain
    rw [nodesStrings, List.mem_append] at hs
    rcases hs with hs | hs
    · rw [head?_mem_nodeStrings hm hs]
      exact hchain
    · exact hbLt_trans hchain (hbLt_headByte_of_mem_tail hWFtail hs)

theorem nodesStrings_pairwise :
    ∀ (l : List Node), NodesWF l → (nodesStrings l).Pairwise lexLt
  | [], _ => by simp [nodesStrings]
  | n :: ns, hWF => by
    obtain ⟨hn, hchain, hWFtail⟩ := nodesWF_cons_iff.mp hWF
    rw [nodesStrings, List.pairwise_append]
    refine ⟨?_, nodesStrings_pairwise ns hWFtail, ?_⟩
    · cases n with
      | leaf rest => simp [nodeStrings]
      | nonLeaf pfx children len =>
        obtain ⟨-, -, hcWF⟩ := nodeWF_nonLeaf_iff.mp hn
        rw [nodeStrings, List.pairwise_map]
        have := nodesStrings_pairwise children hcWF
        exact this.imp fun hab => by
          simpa [lexLt, lexCmp_append_left] using hab
    · intro s hs t ht
      have h1 : s.head? = headByte n := head?_mem_nodeStrings hn hs
      have h2 : hbLt (headByte n) t.head? := hbLt_headByte_of_mem_tail hWF ht
      exact lexLt_of_hbLt (h1 ▸ h2)

theorem nodesStrings_nodup (l : List Node) (h : NodesWF l) : (nodesStrings l).Nodup :=
  (nodesStrings_pairwise l h).imp lexLt_ne

/-! ## Correctness of rank-to-string lookup (impl Key for usize) -/

theorem getIdxInner_eq :
    ∀ (l : List Node), NodesWF l → ∀ (i : Nat) (buf : List Nat),
      getIdxInner l i buf = ((nodesStrings l)[i]?).map (buf ++ ·)
  | [], _, i, buf => by simp [getIdxInner, nodesStrings]
  | Node.leaf rest :: ns, hWF, i, buf => by
    obtain ⟨-, -, hWFtail⟩ := nodesWF_cons_iff.mp hWF
    rw [getIdxInner]
    cases i with
    | zero => simp [nodesStrings, nodeStrings]
    | succ j =>
      rw [if_neg (Nat.succ_ne_zero j), Nat.add_sub_cancel]
      rw [getIdxInner_eq ns hWFtail j buf]
      simp [nodesStrings, nodeStrings]
  | Node.nonLeaf pfx children len :: ns, hWF, i, buf => by
    obtain ⟨hn, -, hWFtail⟩ := nodesWF_cons_iff.mp hWF
    obtain ⟨-, hlen, hcWF⟩ := nodeWF_nonLeaf_iff.mp hn
    have hAlen : (nodeStrings (Node.nonLeaf pfx children len)).length = len := by
      rw [nodeStrings, List.length_map, hlen]
    rw [getIdxInner]
    split_ifs with hle
    · rw [getIdxInner_eq ns hWFtail (i - len) buf]
      rw [nodesStrings, List.getElem?_append_right (by omega)]
      rw [hAlen]
    · rw [getIdxInner_eq children hcWF i (buf ++ pfx)]
      rw [nodesStrings, List.getElem?_append_left (by omega)]
      rw [nodeStrings, List.getElem?_map]
      cases (nodesStrings children)[i]? with
      | none => rfl
      | some s => simp


/-! ## An index-of function for string lists

The running offset computed by string-to-rank lookup is the position of the key in
the document-order contents, so we need a first-index function on string lists. -/

/-- Index of the first occurrence of a string in a list (length if absent). -/
def idxOfStr (a : List Nat) : List (List Nat) → Nat
  | [] => 0
  | b :: bs => if b = a then 0 else idxOfStr a bs + 1

theorem idxOfStr_cons_self (a : List Nat) (l : List (List Nat)) :
    idxOfStr a (a :: l) = 0 := by
  simp [idxOfStr]

theorem idxOfStr_cons_ne {a b : List Nat} (l : List (List Nat)) (h : b ≠ a) :
    idxOfStr a (b :: l) = idxOfStr a l + 1 := by
  simp [idxOfStr, h]

theorem idxOfStr_lt_length {a : List Nat} :
    ∀ {l : List (List Nat)}, a ∈ l → idxOfStr a l < l.length
  | [], h => by simp at h
  | b :: bs, h => by
    by_cases hba : b = a
    · simp [idxOfStr, hba]
    · rw [idxOfStr_cons_ne bs hba, List.length_cons]
      have : a ∈ bs := by
        rcases List.mem_cons.mp h with h | h
        · exact absurd h.symm hba
        · exact h
      exact Nat.succ_lt_succ (idxOfStr_lt_length this)

theorem idxOfStr_append_left {a : List Nat} :
    ∀ {l₁ : List (List Nat)} (l₂ : List (List Nat)), a ∈ l₁ →
      idxOfStr a (l₁ ++ l₂) = idxOfStr a l₁
  | [], _, h => by simp at h
  | b :: bs, l₂, h => by
    by_cases hba : b = a
    · simp [idxOfStr, hba]
    · have : a ∈ bs := by
        rcases List.mem_cons.mp h with h | h
        · exact absurd h.symm hba
        · exact h
      rw [List.cons_append, idxOfStr_cons_ne _ hba, idxOfStr_cons_ne _ hba,
        idxOfStr_append_left l₂ this]

theorem idxOfStr_append_right {a : List Nat} :
    ∀ {l₁ : List (List Nat)} (l₂ : List (List Nat)), a ∉ l₁ →
      idxOfStr a (l₁ ++ l₂) = l₁.length + idxOfStr a l₂
  | [], _, _ => by simp
  | b :: bs, l₂, h => by
    have hba : b ≠ a := fun hb => h (hb ▸ List.mem_cons_self b bs)
    have : a ∉ bs := fun hb => h (List.mem_cons_of_mem b hb)
    rw [List.cons_append, idxOfStr_cons_ne _ hba, idxOfStr_append_right l₂ this,
      List.length_cons]
    omega

theorem getElem?_idxOfStr {a : List Nat} :
    ∀ {l : List (List Nat)}, a ∈ l → l[idxOfStr a l]? = some a
  | [], h => by simp at h
  | b :: bs, h => by
    by_cases hba : b = a
    · simp [idxOfStr, hba]
    · have : a ∈ bs := by
        rcases List.mem_cons.mp h with h | h
        · exact absurd h.symm hba
        · exact h
      rw [idxOfStr_cons_ne bs hba]
      simpa using getElem?_idxOfStr this

theorem idxOfStr_getElem? {a : List Nat} :
    ∀ {l : List (List Nat)}, l.Nodup → ∀ {i : Nat}, l[i]? = some a → idxOfStr a l = i
  | [], _, i, h => by simp at h
  | b :: bs, hnd, i, h => by
    cases i with
    | zero =>
      simp only [List.getElem?_cons_zero, Option.some_inj] at h
      rw [h, idxOfStr_cons_self]
    | succ j =>
      rw [List.getElem?_cons_succ] at h
      have hmem : a ∈ bs := List.getElem?_mem h
      have hba : b ≠ a := by
        intro hb
        exact (List.nodup_cons.mp hnd).1 (hb ▸ hmem)
      rw [idxOfStr_cons_ne bs hba, idxOfStr_getElem? (List.nodup_cons.mp hnd).2 h]

theorem idxOfStr_map_inj {f : List Nat → List Nat} (hf : Function.Injective f) :
    ∀ (l : List (List Nat)) (a : List Nat), idxOfStr (f a) (l.map f) = idxOfStr a l
  | [], _ => rfl
  | b :: bs, a => by
    by_cases hba : b = a
    · simp [idxOfStr, hba]
    · rw [List.map_cons, idxOfStr_cons_ne _ (fun h => hba (hf h)),
        idxOfStr_cons_ne _ hba, idxOfStr_map_inj hf bs a]

/-! ## Correctness of string-to-rank lookup (impl Key for &str) -/

theorem getStrInner_some_mem :
    ∀ (l : List Node) (k : List Nat) (i j : Nat),
      getStrInner l k i = some j → k ∈ nodesStrings l
  | [], k, i, j, h => by simp [getStrInner] at h
  | Node.leaf rest :: ns, k, i, j, h => by
    rw [getStrInner] at h
    rw [nodesStrings, List.mem_append]
    cases hc : lexCmp k rest with
    | eq => exact Or.inl (by simp [nodeStrings, lexCmp_eq_iff.mp hc])
    | gt => exact Or.inr (getStrInner_some_mem ns k (i + 1) j (by rwa [hc] at h))
    | lt => rw [hc] at h; simp at h
  | Node.nonLeaf pfx children len :: ns, k, i, j, h => by
    rw [getStrInner] at h
    rw [nodesStrings, List.mem_append]
    cases hc : lexCmp (k.take (min k.length pfx.length)) pfx with
    | eq =>
      rw [hc] at h
      have htake : k.take (min k.length pfx.length) = pfx := lexCmp_eq_iff.mp hc
      have hlen : pfx.length ≤ k.length := by
        by_contra hlt
        have hmin : min k.length pfx.length = k.length := by omega
        rw [hmin, List.take_length] at htake
        have := congrArg List.length htake
        omega
      have hmin : min k.length pfx.length = pfx.length := by omega
      rw [hmin] at htake
      have hk : k = pfx ++ k.drop pfx.length := by
        conv_lhs => rw [← List.take_append_drop pfx.length k, htake]
      refine Or.inl ?_
      rw [nodeStrings, List.mem_map]
      exact ⟨k.drop pfx.length, getStrInner_some_mem children _ i j h, hk.symm⟩
    | gt => exact Or.inr (getStrInner_some_mem ns k (i + len) j (by rwa [hc] at h))
    | lt => rw [hc] at h; simp at h

theorem getStrInner_eq_of_mem :
    ∀ (l : List Node), NodesWF l → ∀ (k : List Nat), k ∈ nodesStrings l → ∀ (i : Nat),
      getStrInner l k i = some (i + idxOfStr k (nodesStrings l))
  | [], _, k, hk, _ => by simp [nodesStrings] at hk
  | Node.leaf rest :: ns, hWF, k, hk, i => by
    obtain ⟨-, -, hWFtail⟩ := nodesWF_cons_iff.mp hWF
    have hcons : nodesStrings (Node.leaf rest :: ns) = rest :: nodesStrings ns := by
      simp [nodesStrings, nodeStrings]
    rw [getStrInner]
    by_cases hkr : k = rest
    · subst hkr
      rw [lexCmp_self]
      show some i = _
      rw [hcons, idxOfStr_cons_self, Nat.add_zero]
    · have hmem : k ∈ nodesStrings ns := by
        rcases List.mem_cons.mp (hcons ▸ hk) with h | h
        · exact absurd h hkr
        · exact h
      have hgt : lexCmp k rest = .gt := by
        rw [lexCmp_gt_iff_lt]
        have := hbLt_headByte_of_mem_tail hWF hmem
        exact lexLt_of_hbLt (by simpa [headByte] using this)
      rw [hgt]
      show getStrInner ns k (i + 1) = _
      rw [getStrInner_eq_of_mem ns hWFtail k hmem (i + 1), hcons,
        idxOfStr_cons_ne _ (fun h => hkr h.symm)]
      congr 1
      omega
  | Node.nonLeaf pfx children len :: ns, hWF, k, hk, i => by
    obtain ⟨hn, -, hWFtail⟩ := nodesWF_cons_iff.mp hWF
    obtain ⟨hpfx, hlen, hcWF⟩ := nodeWF_nonLeaf_iff.mp hn
    obtain ⟨ph, pt, rfl⟩ : ∃ ph pt, pfx = ph :: pt := by
      cases pfx with
      | nil => exact absurd rfl hpfx
      | cons x xs => exact ⟨x, xs, rfl⟩
    rw [getStrInner]
    rw [nodesStrings, List.mem_append] at hk
    by_cases hmemA : k ∈ nodeStrings (Node.nonLeaf (ph :: pt) children len)
    · obtain ⟨s, hs, rfl⟩ := List.mem_map.mp (by rwa [nodeStrings] at hmemA)
      have hminlen : min ((ph :: pt) ++ s).length (ph :: pt).length = (ph :: pt).length := by
        simp
      rw [hminlen, List.take_left, lexCmp_self]
      show getStrInner children (((ph :: pt) ++ s).drop (ph :: pt).length) i = _
      rw [List.drop_left]
      rw [getStrInner_eq_of_mem children hcWF s hs i]
      rw [nodesStrings, idxOfStr_append_left _ hmemA, nodeStrings,
        idxOfStr_map_inj (List.append_right_injective (ph :: pt)) _ s]
    · have hmem : k ∈ nodesStrings ns := hk.resolve_left hmemA
      have hhb := hbLt_headByte_of_mem_tail hWF hmem
      obtain ⟨b, kt, rfl⟩ : ∃ b kt, k = b :: kt := by
        cases k with
        | nil => simp [headByte, hbLt] at hhb
        | cons x xs => exact ⟨x, xs, rfl⟩
      have hb : ph < b := by simpa [headByte, hbLt] using hhb
      have hmin : min (b :: kt).length (ph :: pt).length = min kt.length pt.length + 1 := by
        simp [Nat.succ_min_succ]
      have hgt : lexCmp ((b :: kt).take (min (b :: kt).length (ph :: pt).length))
          (ph :: pt) = .gt := by
        rw [hmin, List.take_succ_cons, lexCmp_cons_ne _ _ (by omega), byteCmp_gt_iff]
        exact hb
      rw [hgt]
      show getStrInner ns (b :: kt) (i + len) = _
      rw [getStrInner_eq_of_mem ns hWFtail _ hmem (i + len)]
      rw [nodesStrings, idxOfStr_append_right _ hmemA]
      have hAlen : (nodeStrings (Node.nonLeaf (ph :: pt) children len)).length = len := by
        rw [nodeStrings, List.length_map, hlen]
      rw [hAlen]
      congr 1
      omega

/-! ## Facts about sortedInsert -/

instance (a b : List Nat) : Decidable (lexLt a b) :=
  inferInstanceAs (Decidable (lexCmp a b = .lt))

theorem sortedInsert_cons_of_lt {k s : List Nat} (ss : List (List Nat))
    (h : lexCmp k s = .lt) : sortedInsert k (s :: ss) = k :: s :: ss := by
  rw [sortedInsert, h]

theorem sortedInsert_cons_of_eq {k s : List Nat} (ss : List (List Nat))
    (h : lexCmp k s = .eq) : sortedInsert k (s :: ss) = s :: ss := by
  rw [sortedInsert, h]

theorem sortedInsert_cons_of_gt {k s : List Nat} (ss : List (List Nat))
    (h : lexCmp k s = .gt) : sortedInsert k (s :: ss) = s :: sortedInsert k ss := by
  rw [sortedInsert, h]

theorem sortedInsert_of_lt_all {k : List Nat} :
    ∀ {l : List (List Nat)}, (∀ s ∈ l, lexLt k s) → sortedInsert k l = k :: l
  | [], _ => rfl
  | s :: ss, h => sortedInsert_cons_of_lt ss (h s (List.mem_cons_self s ss))

theorem sortedInsert_of_gt_all {k : List Nat} :
    ∀ {l : List (List Nat)}, (∀ s ∈ l, lexCmp k s = .gt) → sortedInsert k l = l ++ [k]
  | [], _ => rfl
  | s :: ss, h => by
    rw [sortedInsert_cons_of_gt ss (h s (List.mem_cons_self s ss)),
      sortedInsert_of_gt_all (fun t ht => h t (List.mem_cons_of_mem s ht))]
    rfl

theorem sortedInsert_append_of_lt {k : List Nat} {B : List (List Nat)}
    (hB : ∀ s ∈ B, lexLt k s) :
    ∀ (A : List (List Nat)), sortedInsert k (A ++ B) = sortedInsert k A ++ B
  | [] => by
    rw [List.nil_append, sortedInsert_of_lt_all hB]
    rfl
  | a :: as => by
    rw [List.cons_append]
    cases hc : lexCmp k a with
    | lt => rw [sortedInsert_cons_of_lt _ hc, sortedInsert_cons_of_lt _ hc]; rfl
    | eq => rw [sortedInsert_cons_of_eq _ hc, sortedInsert_cons_of_eq _ hc]; rfl
    | gt =>
      rw [sortedInsert_cons_of_gt _ hc, sortedInsert_cons_of_gt _ hc,
        sortedInsert_append_of_lt hB as]
      rfl

theorem mem_sortedInsert (k : List Nat) :
    ∀ (l : List (List Nat)) (s : List Nat), s ∈ sortedInsert k l ↔ s = k ∨ s ∈ l
  | [], s => by simp [sortedInsert]
  | t :: ts, s => by
    cases hc : lexCmp k t with
    | lt => rw [sortedInsert_cons_of_lt _ hc]; simp
    | eq =>
      rw [sortedInsert_cons_of_eq _ hc]
      have : k = t := lexCmp_eq_iff.mp hc
      subst this
      simp
    | gt =>
      rw [sortedInsert_cons_of_gt _ hc]
      simp [mem_sortedInsert k ts s]
      tauto

theorem length_sortedInsert_of_not_mem {k : List Nat} :
    ∀ {l : List (List Nat)}, k ∉ l → (sortedInsert k l).length = l.length + 1
  | [], _ => rfl
  | t :: ts, h => by
    cases hc : lexCmp k t with
    | lt => rw [sortedInsert_cons_of_lt _ hc]; rfl
    | eq => exact absurd (lexCmp_eq_iff.mp hc ▸ List.mem_cons_self t ts) h
    | gt =>
      rw [sortedInsert_cons_of_gt _ hc, List.length_cons, List.length_cons,
        length_sortedInsert_of_not_mem (fun hm => h (List.mem_cons_of_mem t hm))]

theorem sortedInsert_of_mem {k : List Nat} :
    ∀ {l : List (List Nat)}, l.Pairwise lexLt → k ∈ l → sortedInsert k l = l
  | [], _, h => by simp at h
  | t :: ts, hpw, h => by
    by_cases hkt : k = t
    · rw [sortedInsert_cons_of_eq _ (lexCmp_eq_iff.mpr hkt)]
    · have hmem : k ∈ ts := by
        rcases List.mem_cons.mp h with h | h
        · exact absurd h hkt
        · exact h
      have hgt : lexCmp k t = .gt := by
        rw [lexCmp_gt_iff_lt]
        exact (List.pairwise_cons.mp hpw).1 k hmem
      rw [sortedInsert_cons_of_gt _ hgt,
        sortedInsert_of_mem (List.pairwise_cons.mp hpw).2 hmem]

theorem map_sortedInsert (pfx : List Nat) :
    ∀ (l : List (List Nat)) (a : List Nat),
      sortedInsert (pfx ++ a) (l.map (pfx ++ ·)) = (sortedInsert a l).map (pfx ++ ·)
  | [], a => rfl
  | t :: ts, a => by
    rw [List.map_cons]
    cases hc : lexCmp a t with
    | lt =>
      have : lexCmp (pfx ++ a) (pfx ++ t) = .lt := by rw [lexCmp_append_left]; exact hc
      rw [sortedInsert_cons_of_lt _ this, sortedInsert_cons_of_lt _ hc]
      rfl
    | eq =>
      have : lexCmp (pfx ++ a) (pfx ++ t) = .eq := by rw [lexCmp_append_left]; exact hc
      rw [sortedInsert_cons_of_eq _ this, sortedInsert_cons_of_eq _ hc]
      rfl
    | gt =>
      have : lexCmp (pfx ++ a) (pfx ++ t) = .gt := by rw [lexCmp_append_left]; exact hc
      rw [sortedInsert_cons_of_gt _ this, sortedInsert_cons_of_gt _ hc,
        map_sortedInsert pfx ts a]
      rfl

theorem idxOfStr_sortedInsert {k : List Nat} :
    ∀ {l : List (List Nat)}, l.Pairwise lexLt → k ∉ l → ∀ u ∈ l,
      idxOfStr u (sortedInsert k l) =
        if lexLt k u then idxOfStr u l + 1 else idxOfStr u l
  | [], _, _, u, hu => by simp at hu
  | t :: ts, hpw, hk, u, hu => by
    obtain ⟨hpt, hpts⟩ := List.pairwise_cons.mp hpw
    have hku : u ≠ k := fun h => hk (h ▸ hu)
    cases hc : lexCmp k t with
    | lt =>
      rw [sortedInsert_cons_of_lt _ hc]
      have hklt : lexLt k u := by
        rcases List.mem_cons.mp hu with rfl | hmem
        · exact hc
        · exact lexLt_trans hc (hpt u hmem)
      rw [if_pos hklt, idxOfStr_cons_ne _ (Ne.symm hku)]
    | eq => exact absurd (lexCmp_eq_iff.mp hc ▸ List.mem_cons_self t ts) hk
    | gt =>
      rw [sortedInsert_cons_of_gt _ hc]
      have htk : lexLt t k := lexCmp_gt_iff_lt.mp hc
      by_cases hut : u = t
      · subst hut
        have : ¬ lexLt k u := fun h => lexLt_irrefl u (lexLt_trans htk h)
        rw [if_neg this, idxOfStr_cons_self, idxOfStr_cons_self]
      · have hmem : u ∈ ts := by
          rcases List.mem_cons.mp hu with h | h
          · exact absurd h hut
          · exact h
        have hknotts : k ∉ ts := fun h => hk (List.mem_cons_of_mem t h)
        rw [idxOfStr_cons_ne _ (fun h => hut h.symm),
          idxOfStr_cons_ne _ (fun h => hut h.symm),
          idxOfStr_sortedInsert hpts hknotts u hmem]
        split_ifs <;> rfl

/-! ## Stepping lemmas for insertInner

These lemmas evaluate one loop iteration of insert_inner per branch, so the
correctness proof can follow the structure of the Rust match. -/

/-- The node built when insert_inner splits a leaf (the Ordering::Equal arm of the
Leaf case): a prefix node over the two divergent remainders. -/
def leafSplitNode (kh : Nat) (kt : List Nat) (rh : Nat) (rt : List Nat) : Node :=
  let k := kh :: kt
  let rest := rh :: rt
  let c := commonPfx k rest
  let fs : List Nat × List Nat :=
    if k.length = c then ([], rest.drop c)
    else if rest.length = c then ([], k.drop c)
    else if k.getD c 0 < rest.getD c 0 then (k.drop c, rest.drop c)
    else (rest.drop c, k.drop c)
  Node.nonLeaf (rest.take c) [Node.leaf fs.1, Node.leaf fs.2] 2

/-- The node built when insert_inner splits a prefix node (the Ordering::Equal arm
of the NonLeaf case with a strictly shorter common prefix). -/
def nonLeafSplitNode (kh : Nat) (kt : List Nat) (ph : Nat) (pt : List Nat)
    (children : List Node) (len : Nat) : Node :=
  let k := kh :: kt
  let pfx := ph :: pt
  let c := commonPfx k pfx
  let leafN := Node.leaf (k.drop c)
  let nonleafN := Node.nonLeaf (pfx.drop c) children len
  let newChildren :=
    if k.length = c ∨ k.getD c 0 < pfx.getD c 0 then [leafN, nonleafN]
    else [nonleafN, leafN]
  Node.nonLeaf (pfx.take c) newChildren (len + 1)

theorem insertInner_leaf_empty (ns : List Node) (kh : Nat) (kt : List Nat) :
    insertInner (Node.leaf [] :: ns) (kh :: kt) =
      (Node.leaf [] :: (insertInner ns (kh :: kt)).1, (insertInner ns (kh :: kt)).2) := by
  rw [insertInner]

theorem insertInner_leaf_gt {kh rh : Nat} (ns : List Node) (kt rt : List Nat)
    (hc : byteCmp kh rh = .gt) :
    insertInner (Node.leaf (rh :: rt) :: ns) (kh :: kt) =
      (Node.leaf (rh :: rt) :: (insertInner ns (kh :: kt)).1,
        (insertInner ns (kh :: kt)).2) := by
  rw [insertInner, hc]

theorem insertInner_leaf_lt {kh rh : Nat} (ns : List Node) (kt rt : List Nat)
    (hc : byteCmp kh rh = .lt) :
    insertInner (Node.leaf (rh :: rt) :: ns) (kh :: kt) =
      (Node.leaf (kh :: kt) :: Node.leaf (rh :: rt) :: ns, true) := by
  rw [insertInner, hc]

theorem insertInner_leaf_dup {kh rh : Nat} (ns : List Node) (kt rt : List Nat)
    (hc : byteCmp kh rh = .eq)
    (hdup : (kh :: kt).length = commonPfx (kh :: kt) (rh :: rt) ∧
      (rh :: rt).length = commonPfx (kh :: kt) (rh :: rt)) :
    insertInner (Node.leaf (rh :: rt) :: ns) (kh :: kt) =
      (Node.leaf (rh :: rt) :: ns, false) := by
  rw [insertInner, hc]
  simp only [if_pos hdup]

theorem insertInner_leaf_split {kh rh : Nat} (ns : List Node) (kt rt : List Nat)
    (hc : byteCmp kh rh = .eq)
    (hne : ¬((kh :: kt).length = commonPfx (kh :: kt) (rh :: rt) ∧
      (rh :: rt).length = commonPfx (kh :: kt) (rh :: rt))) :
    insertInner (Node.leaf (rh :: rt) :: ns) (kh :: kt) =
      (leafSplitNode kh kt rh rt :: ns, true) := by
  rw [insertInner, hc]
  simp only [if_neg hne]
  rfl

theorem insertInner_nonLeaf_gt {kh ph : Nat} (ns : List Node) (kt pt : List Nat)
    (children : List Node) (len : Nat) (hc : byteCmp kh ph = .gt) :
    insertInner (Node.nonLeaf (ph :: pt) children len :: ns) (kh :: kt) =
      (Node.nonLeaf (ph :: pt) children len :: (insertInner ns (kh :: kt)).1,
        (insertInner ns (kh :: kt)).2) := by
  rw [insertInner, hc]

theorem insertInner_nonLeaf_lt {kh ph : Nat} (ns : List Node) (kt pt : List Nat)
    (children : List Node) (len : Nat) (hc : byteCmp kh ph = .lt) :
    insertInner (Node.nonLeaf (ph :: pt) children len :: ns) (kh :: kt) =
      (Node.leaf (kh :: kt) :: Node.nonLeaf (ph :: pt) children len :: ns, true) := by
  rw [insertInner, hc]

theorem insertInner_nonLeaf_rec {kh ph : Nat} (ns : List Node) (kt pt : List Nat)
    (children : List Node) (len : Nat) (hc : byteCmp kh ph = .eq)
    (hlen : (ph :: pt).length = commonPfx (kh :: kt) (ph :: pt)) :
    insertInner (Node.nonLeaf (ph :: pt) children len :: ns) (kh :: kt) =
      (Node.nonLeaf (ph :: pt)
          (insertInner children ((kh :: kt).drop (commonPfx (kh :: kt) (ph :: pt)))).1
          (if (insertInner children
            ((kh :: kt).drop (commonPfx (kh :: kt) (ph :: pt)))).2 then len + 1 else len)
        :: ns,
        (insertInner children ((kh :: kt).drop (commonPfx (kh :: kt) (ph :: pt)))).2) := by
  rw [insertInner, hc]
  simp only [if_pos hlen]

theorem insertInner_nonLeaf_split {kh ph : Nat} (ns : List Node) (kt pt : List Nat)
    (children : List Node) (len : Nat) (hc : byteCmp kh ph = .eq)
    (hne : (ph :: pt).length ≠ commonPfx (kh :: kt) (ph :: pt)) :
    insertInner (Node.nonLeaf (ph :: pt) children len :: ns) (kh :: kt) =
      (nonLeafSplitNode kh kt ph pt children len :: ns, true) := by
  rw [insertInner, hc]
  simp only [if_neg hne]
  rfl

/-! ## Correctness of the split constructions -/

theorem drop_ne_nil_of_lt {l : List Nat} {n : Nat} (h : n < l.length) : l.drop n ≠ [] := by
  intro he
  have := List.length_drop n l
  rw [he] at this
  simp at this
  omega

theorem head?_drop_of_lt {l : List Nat} {n : Nat} (h : n < l.length) :
    (l.drop n).head? = some l[n] := by
  rw [List.drop_eq_getElem_cons h]
  rfl

theorem take_cons_ne_nil {x : Nat} {xs : List Nat} {n : Nat} (h : n ≠ 0) :
    (x :: xs).take n ≠ [] := by
  cases n with
  | zero => exact absurd rfl h
  | succ m => simp

theorem head?_take_cons {x : Nat} {xs : List Nat} {n : Nat} (h : n ≠ 0) :
    ((x :: xs).take n).head? = some x := by
  cases n with
  | zero => exact absurd rfl h
  | succ m => simp

theorem leafSplit_spec {kh rh : Nat} (kt rt : List Nat) (heq : kh = rh)
    (hne : ¬((kh :: kt).length = commonPfx (kh :: kt) (rh :: rt) ∧
      (rh :: rt).length = commonPfx (kh :: kt) (rh :: rt))) :
    NodeWF (leafSplitNode kh kt rh rt) ∧
    nodeStrings (leafSplitNode kh kt rh rt) = sortedInsert (kh :: kt) [rh :: rt] ∧
    headByte (leafSplitNode kh kt rh rt) = some rh ∧
    (kh :: kt) ∉ nodeStrings (Node.leaf (rh :: rt)) := by
  set k := kh :: kt with hk
  set rest := rh :: rt with hrest
  set c := commonPfx k rest with hcdef
  have hc0 : 0 < c := commonPfx_cons_pos heq
  have hck : c ≤ k.length := commonPfx_le_left k rest
  have hcr : c ≤ rest.length := commonPfx_le_right k rest
  have htake : k.take c = rest.take c := commonPfx_take_eq k rest
  have hcmp : lexCmp k rest = lexCmp (k.drop c) (rest.drop c) := lexCmp_of_take_eq c htake
  have hpfx_ne : rest.take c ≠ [] := take_cons_ne_nil (by omega)
  have hpfx_head : (rest.take c).head? = some rh := head?_take_cons (by omega)
  by_cases hkc : k.length = c
  · -- k is a proper prefix of rest; the new children are the empty leaf and the
    -- remainder of rest.
    have hrc : rest.length ≠ c := fun h => hne ⟨hkc, h⟩
    have hrlt : c < rest.length := by omega
    have hfs : leafSplitNode kh kt rh rt =
        Node.nonLeaf (rest.take c) [Node.leaf [], Node.leaf (rest.drop c)] 2 := by
      rw [leafSplitNode]
      simp only [← hk, ← hrest, ← hcdef, if_pos hkc]
    have hkdrop : k.drop c = [] := by rw [← hkc]; exact List.drop_length k
    have hlt : lexCmp k rest = .lt := by
      rw [hcmp, hkdrop]
      exact lexCmp_nil_lt (drop_ne_nil_of_lt hrlt)
    have hktake : k = rest.take c := by
      conv_lhs => rw [← List.take_length k, hkc, htake]
    refine ⟨?_, ?_, ?_, ?_⟩
    · rw [hfs, nodeWF_nonLeaf_iff]
      refine ⟨hpfx_ne, by simp [nodesStrings, nodeStrings], ?_⟩
      rw [NodesWF]
      refine ⟨trivial, ?_, ?_⟩
      · simp only [chainHead, headByte]
        rw [List.head?, head?_drop_of_lt hrlt]
        exact trivial
      · rw [NodesWF]
        exact ⟨trivial, trivial, trivial⟩
    · rw [hfs, sortedInsert_cons_of_lt _ hlt]
      simp only [nodeStrings, nodesStrings]
      simp [← hktake]
      rw [hktake]
      exact List.take_append_drop c rest
    · rw [hfs, headByte]
      exact hpfx_head
    · rw [nodeStrings, List.mem_singleton]
      intro h
      rw [h] at hlt
      rw [lexCmp_self] at hlt
      exact absurd hlt (by simp)
  · by_cases hrc : rest.length = c
    · -- rest is a proper prefix of k.
      have hklt : c < k.length := by omega
      have hfs : leafSplitNode kh kt rh rt =
          Node.nonLeaf (rest.take c) [Node.leaf [], Node.leaf (k.drop c)] 2 := by
        rw [leafSplitNode]
        simp only [← hk, ← hrest, ← hcdef, if_neg hkc, if_pos hrc]
      have hrdrop : rest.drop c = [] := by rw [← hrc]; exact List.drop_length rest
      have hgt : lexCmp k rest = .gt := by
        rw [hcmp, hrdrop]
        rw [lexCmp_gt_iff_lt]
        exact lexCmp_nil_lt (drop_ne_nil_of_lt hklt)
      have hrtake : rest = rest.take c := by
        conv_lhs => rw [← List.take_length rest, hrc]
      refine ⟨?_, ?_, ?_, ?_⟩
      · rw [hfs, nodeWF_nonLeaf_iff]
        refine ⟨hpfx_ne, by simp [nodesStrings, nodeStrings], ?_⟩
        rw [NodesWF]
        refine ⟨trivial, ?_, ?_⟩
        · simp only [chainHead, headByte]
          rw [List.head?, head?_drop_of_lt hklt]
          exact trivial
        · rw [NodesWF]
          exact ⟨trivial, trivial, trivial⟩
      · rw [hfs, sortedInsert_cons_of_gt _ hgt]
        simp only [nodeStrings, nodesStrings, sortedInsert]
        rw [← hrtake]
        have : rest.take c ++ k.drop c = k := by
          rw [← htake]
          exact List.take_append_drop c k
        simp [this]
        rw [hrtake]
        exact this
      · rw [hfs, headByte]
        exact hpfx_head
      · rw [nodeStrings, List.mem_singleton]
        intro h
        rw [h, lexCmp_self] at hgt
        exact absurd hgt (by simp)
    · -- Both remainders are non-empty and diverge at position c.
      have hklt : c < k.length := by omega
      have hrlt : c < rest.length := by omega
      have hne_at : k.getD c 0 ≠ rest.getD c 0 := commonPfx_getD_ne k rest hklt hrlt
      have hkd : k.drop c = k[c] :: k.drop (c + 1) := List.drop_eq_getElem_cons hklt
      have hrd : rest.drop c = rest[c] :: rest.drop (c + 1) := List.drop_eq_getElem_cons hrlt
      have hgetk : k.getD c 0 = k[c] := List.getD_eq_getElem k 0 hklt
      have hgetr : rest.getD c 0 = rest[c] := List.getD_eq_getElem rest 0 hrlt
      have hcmp_at : lexCmp k rest = byteCmp k[c] rest[c] := by
        rw [hcmp, hkd, hrd, lexCmp_cons_ne _ _ (by rw [← hgetk, ← hgetr]; exact hne_at)]
      have htk : rest.take c ++ k.drop c = k := by
        rw [← htake]
        exact List.take_append_drop c k
      have htr : rest.take c ++ rest.drop c = rest := List.take_append_drop c rest
      by_cases hlt : k.getD c 0 < rest.getD c 0
      · have hfs : leafSplitNode kh kt rh rt =
            Node.nonLeaf (rest.take c) [Node.leaf (k.drop c), Node.leaf (rest.drop c)] 2 := by
          rw [leafSplitNode]
          simp only [← hk, ← hrest, ← hcdef, if_neg hkc, if_neg hrc, if_pos hlt]
        have hklex : lexCmp k rest = .lt := by
          rw [hcmp_at, byteCmp_lt_iff, ← hgetk, ← hgetr]
          exact hlt
        refine ⟨?_, ?_, ?_, ?_⟩
        · rw [hfs, nodeWF_nonLeaf_iff]
          refine ⟨hpfx_ne, by simp [nodesStrings, nodeStrings], ?_⟩
          rw [NodesWF]
          refine ⟨trivial, ?_, ?_⟩
          · simp only [chainHead, headByte]
            rw [head?_drop_of_lt hklt, head?_drop_of_lt hrlt]
            show k[c] < rest[c]
            rw [← hgetk, ← hgetr]
            exact hlt
          · rw [NodesWF]
            exact ⟨trivial, trivial, trivial⟩
        · rw [hfs, sortedInsert_cons_of_lt _ hklex]
          simp only [nodeStrings, nodesStrings]
          simp [htk, htr]
        · rw [hfs, headByte]
          exact hpfx_head
        · rw [nodeStrings, List.mem_singleton]
          intro h
          rw [h, lexCmp_self] at hklex
          exact absurd hklex (by simp)
      · have hfs : leafSplitNode kh kt rh rt =
            Node.nonLeaf (rest.take c) [Node.leaf (rest.drop c), Node.leaf (k.drop c)] 2 := by
          rw [leafSplitNode]
          simp only [← hk, ← hrest, ← hcdef, if_neg hkc, if_neg hrc, if_neg hlt]
        have hgt_at : rest.getD c 0 < k.getD c 0 := by omega
        have hklex : lexCmp k rest = .gt := by
          rw [hcmp_at, byteCmp_gt_iff, ← hgetk, ← hgetr]
          exact hgt_at
        refine ⟨?_, ?_, ?_, ?_⟩
        · rw [hfs, nodeWF_nonLeaf_iff]
          refine ⟨hpfx_ne, by simp [nodesStrings, nodeStrings], ?_⟩
          rw [NodesWF]
          refine ⟨trivial, ?_, ?_⟩
          · simp only [chainHead, headByte]
            rw [head?_drop_of_lt hklt, head?_drop_of_lt hrlt]
            show rest[c] < k[c]
            rw [← hgetk, ← hgetr]
            exact hgt_at
          · rw [NodesWF]
            exact ⟨trivial, trivial, trivial⟩
        · rw [hfs, sortedInsert_cons_of_gt _ hklex]
          simp only [nodeStrings, nodesStrings, sortedInsert]
          simp [htk, htr]
        · rw [hfs, headByte]
          exact hpfx_head
        · rw [nodeStrings, List.mem_singleton]
          intro h
          rw [h, lexCmp_self] at hklex
          exact absurd hklex (by simp)

theorem nonLeafSplit_spec {kh ph : Nat} (kt pt : List Nat) (children : List Node)
    (len : Nat) (heq : kh = ph) (hcWF : NodesWF children)
    (hlen : len = (nodesStrings children).length)
    (hne : (ph :: pt).length ≠ commonPfx (kh :: kt) (ph :: pt)) :
    NodeWF (nonLeafSplitNode kh kt ph pt children len) ∧
    nodeStrings (nonLeafSplitNode kh kt ph pt children len) =
      sortedInsert (kh :: kt) (nodeStrings (Node.nonLeaf (ph :: pt) children len)) ∧
    headByte (nonLeafSplitNode kh kt ph pt children len) = some ph ∧
    (kh :: kt) ∉ nodeStrings (Node.nonLeaf (ph :: pt) children len) := by
  set k := kh :: kt with hk
  set pfx := ph :: pt with hpfx
  set c := commonPfx k pfx with hcdef
  have hc0 : 0 < c := commonPfx_cons_pos heq
  have hck : c ≤ k.length := commonPfx_le_left k pfx
  have hclt : c < pfx.length :=
    Nat.lt_of_le_of_ne (commonPfx_le_right k pfx) (fun h => hne h.symm)
  have htake : k.take c = pfx.take c := commonPfx_take_eq k pfx
  have hpd : pfx.drop c = pfx[c] :: pfx.drop (c + 1) := List.drop_eq_getElem_cons hclt
  have hgetp : pfx.getD c 0 = pfx[c] := List.getD_eq_getElem pfx 0 hclt
  have hcmp_all : ∀ s : List Nat, lexCmp k (pfx ++ s) =
      lexCmp (k.drop c) (pfx.drop c ++ s) := by
    intro s
    have h1 : k.take c = (pfx ++ s).take c := by
      rw [htake, List.take_append_of_le_length (Nat.le_of_lt hclt)]
    have h2 : (pfx ++ s).drop c = pfx.drop c ++ s :=
      List.drop_append_of_le_length (Nat.le_of_lt hclt)
    rw [lexCmp_of_take_eq c h1, h2]
  have hfirst : pfx.take c ++ k.drop c = k := by
    rw [← htake]
    exact List.take_append_drop c k
  have hfun : ∀ s : List Nat, pfx.take c ++ (pfx.drop c ++ s) = pfx ++ s := by
    intro s
    rw [← List.append_assoc, List.take_append_drop]
  have hpfx_ne : pfx.take c ≠ [] := take_cons_ne_nil (by omega)
  have hpfx_head : (pfx.take c).head? = some ph := head?_take_cons (by omega)
  by_cases hA : k.length = c ∨ k.getD c 0 < pfx.getD c 0
  · have hnode : nonLeafSplitNode kh kt ph pt children len =
        Node.nonLeaf (pfx.take c)
          [Node.leaf (k.drop c), Node.nonLeaf (pfx.drop c) children len] (len + 1) := by
      rw [nonLeafSplitNode]
      simp only [← hk, ← hpfx, ← hcdef, if_pos hA]
    have hlex_all : ∀ s : List Nat, lexCmp k (pfx ++ s) = .lt := by
      intro s
      rw [hcmp_all s]
      rcases Nat.eq_or_lt_of_le hck with hkc | hklt
      · have hnnil : pfx.drop c ++ s ≠ [] := by
          rw [hpd, List.cons_append]
          exact List.cons_ne_nil _ _
        rw [hkc, List.drop_length]
        exact lexCmp_nil_lt (hkc ▸ hnnil)
      · have hkc : k.length ≠ c := by omega
        have hget : k.getD c 0 < pfx.getD c 0 := hA.resolve_left hkc
        have hgetk : k.getD c 0 = k[c] := List.getD_eq_getElem k 0 hklt
        rw [List.drop_eq_getElem_cons hklt, hpd, List.cons_append,
          lexCmp_cons_ne _ _ (by rw [← hgetk, ← hgetp]; omega), byteCmp_lt_iff]
        rw [← hgetk, ← hgetp]
        exact hget
    have hstrings : nodeStrings (nonLeafSplitNode kh kt ph pt children len) =
        k :: (nodesStrings children).map (pfx ++ ·) := by
      rw [hnode, nodeStrings]
      simp only [nodesStrings, nodeStrings, List.append_nil]
      rw [List.map_append, List.map_map]
      simp only [List.map_cons, List.map_nil, hfirst]
      rw [List.cons_append, List.nil_append]
      congr 1
      apply List.map_congr_left
      intro s _
      exact hfun s
    refine ⟨?_, ?_, ?_, ?_⟩
    · rw [hnode, nodeWF_nonLeaf_iff]
      refine ⟨hpfx_ne, ?_, ?_⟩
      · simp [nodesStrings, nodeStrings, hlen]
      · rw [NodesWF]
        refine ⟨trivial, ?_, ?_⟩
        · simp only [chainHead, headByte]
          rcases Nat.eq_or_lt_of_le hck with hkc | hklt
          · have hh : (pfx.drop c).head? = some (pfx.getD c 0) := by
              rw [head?_drop_of_lt hclt, ← hgetp]
            rw [hkc, List.drop_length]
            rw [hkc] at hh
            rw [hh]
            exact trivial
          · have hkc : k.length ≠ c := by omega
            have hget : k.getD c 0 < pfx.getD c 0 := hA.resolve_left hkc
            have hgetk : k.getD c 0 = k[c] := List.getD_eq_getElem k 0 hklt
            rw [head?_drop_of_lt hklt, head?_drop_of_lt hclt]
            show k[c] < pfx[c]
            omega
        · rw [NodesWF, nodeWF_nonLeaf_iff]
          exact ⟨⟨drop_ne_nil_of_lt hclt, hlen, hcWF⟩, trivial, trivial⟩
    · rw [hstrings, nodeStrings]
      rw [sortedInsert_of_lt_all]
      intro s hs
      obtain ⟨t, -, rfl⟩ := List.mem_map.mp hs
      exact hlex_all t
    · rw [hnode, headByte]
      exact hpfx_head
    · rw [nodeStrings]
      intro hmem
      obtain ⟨t, -, ht⟩ := List.mem_map.mp hmem
      have := hlex_all t
      rw [ht, lexCmp_self] at this
      exact absurd this (by simp)
  · push_neg at hA
    obtain ⟨hkc, hge⟩ := hA
    have hklt : c < k.length := by omega
    have hgetk : k.getD c 0 = k[c] := List.getD_eq_getElem k 0 hklt
    have hne_at : k.getD c 0 ≠ pfx.getD c 0 := commonPfx_getD_ne k pfx hklt hclt
    have hgt_at : pfx.getD c 0 < k.getD c 0 := by omega
    have hnode : nonLeafSplitNode kh kt ph pt children len =
        Node.nonLeaf (pfx.take c)
          [Node.nonLeaf (pfx.drop c) children len, Node.leaf (k.drop c)] (len + 1) := by
      rw [nonLeafSplitNode]
      simp only [← hk, ← hpfx, ← hcdef]
      rw [if_neg (by push_neg; exact ⟨hkc, by omega⟩)]
    have hlex_all : ∀ s : List Nat, lexCmp k (pfx ++ s) = .gt := by
      intro s
      rw [hcmp_all s, List.drop_eq_getElem_cons hklt, hpd, List.cons_append,
        lexCmp_cons_ne _ _ (by rw [← hgetk, ← hgetp]; omega), byteCmp_gt_iff]
      omega
    have hstrings : nodeStrings (nonLeafSplitNode kh kt ph pt children len) =
        (nodesStrings children).map (pfx ++ ·) ++ [k] := by
      rw [hnode, nodeStrings]
      simp only [nodesStrings, nodeStrings, List.append_nil]
      rw [List.map_append, List.map_map]
      simp only [List.map_cons, List.map_nil, hfirst]
      congr 1
      apply List.map_congr_left
      intro s _
      exact hfun s
    refine ⟨?_, ?_, ?_, ?_⟩
    · rw [hnode, nodeWF_nonLeaf_iff]
      refine ⟨hpfx_ne, ?_, ?_⟩
      · simp [nodesStrings, nodeStrings, hlen]
      · rw [NodesWF]
        refine ⟨?_, ?_, ?_⟩
        · rw [nodeWF_nonLeaf_iff]
          exact ⟨drop_ne_nil_of_lt hclt, hlen, hcWF⟩
        · simp only [chainHead, headByte]
          rw [head?_drop_of_lt hklt, head?_drop_of_lt hclt]
          show pfx[c] < k[c]
          omega
        · rw [NodesWF]
          exact ⟨trivial, trivial, trivial⟩
    · rw [hstrings, nodeStrings]
      rw [sortedInsert_of_gt_all]
      intro s hs
      obtain ⟨t, -, rfl⟩ := List.mem_map.mp hs
      exact hlex_all t
    · rw [hnode, headByte]
      exact hpfx_head
    · rw [nodeStrings]
      intro hmem
      obtain ⟨t, -, ht⟩ := List.mem_map.mp hmem
      have := hlex_all t
      rw [ht, lexCmp_self] at this
      exact absurd this (by simp)

/-! ## Helpers for the insertion invariant proof -/

theorem sortedInsert_append_of_gt {k : List Nat} {B : List (List Nat)} :
    ∀ {A : List (List Nat)}, (∀ s ∈ A, lexCmp k s = .gt) →
      sortedInsert k (A ++ B) = A ++ sortedInsert k B
  | [], _ => rfl
  | a :: as, h => by
    rw [List.cons_append,
      sortedInsert_cons_of_gt _ (h a (List.mem_cons_self a as)),
      sortedInsert_append_of_gt (fun s hs => h s (List.mem_cons_of_mem a hs))]
    rfl

theorem chainHead_of_heads {n : Node} {l l' : List Node} {ko : Option Nat}
    (hch : chainHead n l) (hb : hbLt (headByte n) ko)
    (he : l'.head?.map headByte = l.head?.map headByte ∨
      l'.head?.map headByte = some ko) :
    chainHead n l' := by
  cases l' with
  | nil => exact trivial
  | cons m ms =>
    show hbLt (headByte n) (headByte m)
    rcases he with he | he
    · cases l with
      | nil => simp at he
      | cons m0 ms0 =>
        simp only [List.head?_cons, Option.map_some'] at he
        rw [Option.some_inj.mp he]
        exact hch
    · simp only [List.head?_cons, Option.map_some'] at he
      rw [Option.some_inj.mp he]
      exact hb

/-- Every string stored under the later siblings of a node headed by byte b is
lexicographically above any key whose first byte is at most b. -/
theorem lexLt_key_tail {n : Node} {ns : List Node} (hWF : NodesWF (n :: ns)) {b : Nat}
    (hhead : headByte n = some b) {kh : Nat} {kt : List Nat} (hle : kh ≤ b) :
    ∀ s ∈ nodesStrings ns, lexLt (kh :: kt) s := by
  intro s hs
  have hhb := hbLt_headByte_of_mem_tail hWF hs
  rw [hhead] at hhb
  cases s with
  | nil => simp [hbLt] at hhb
  | cons sh st =>
    simp only [List.head?_cons, hbLt] at hhb
    rw [lexLt, lexCmp_cons_ne _ _ (by omega), byteCmp_lt_iff]
    omega

theorem not_mem_tail_of_head_le {n : Node} {ns : List Node} (hWF : NodesWF (n :: ns))
    {b : Nat} (hhead : headByte n = some b) {kh : Nat} {kt : List Nat} (hle : kh ≤ b) :
    (kh :: kt) ∉ nodesStrings ns := by
  intro hmem
  exact lexLt_irrefl _ (lexLt_key_tail hWF hhead hle _ hmem)

/-- Under a well-formed head node with first byte b, any string of that node is
lexicographically above a key with a strictly smaller first byte. -/
theorem lexLt_key_node {n : Node} (hWF : NodeWF n) {b : Nat}
    (hhead : headByte n = some b) {kh : Nat} {kt : List Nat} (hlt : kh < b) :
    ∀ s ∈ nodeStrings n, lexLt (kh :: kt) s := by
  intro s hs
  have := head?_mem_nodeStrings hWF hs
  rw [hhead] at this
  apply lexLt_of_hbLt
  rw [this]
  exact hlt

@[simp] theorem nodesStrings_nil : nodesStrings [] = [] := by rw [nodesStrings]

@[simp] theorem nodesStrings_cons (n : Node) (ns : List Node) :
    nodesStrings (n :: ns) = nodeStrings n ++ nodesStrings ns := by rw [nodesStrings]

@[simp] theorem nodeStrings_leaf (rest : List Nat) :
    nodeStrings (Node.leaf rest) = [rest] := by rw [nodeStrings]

@[simp] theorem nodeStrings_nonLeaf (pfx : List Nat) (children : List Node) (len : Nat) :
    nodeStrings (Node.nonLeaf pfx children len) = (nodesStrings children).map (pfx ++ ·) := by
  rw [nodeStrings]

theorem chainHead_congr {n n' : Node} (h : headByte n = headByte n') {ns : List Node}
    (hch : chainHead n ns) : chainHead n' ns := by
  cases ns with
  | nil => exact trivial
  | cons m ms =>
    show hbLt (headByte n') (headByte m)
    rw [← h]
    exact hch

theorem insertInner_nil_nil : insertInner [] [] = ([Node.leaf []], true) := by
  simp [insertInner]

theorem insertInner_emptyLeaf_nil (tail : List Node) :
    insertInner (Node.leaf [] :: tail) [] = (Node.leaf [] :: tail, false) := by
  simp [insertInner]

theorem insertInner_leaf_nil (rh : Nat) (rt : List Nat) (tail : List Node) :
    insertInner (Node.leaf (rh :: rt) :: tail) [] =
      (Node.leaf [] :: Node.leaf (rh :: rt) :: tail, true) := by
  simp [insertInner]

theorem insertInner_nonLeaf_nil (pfx : List Nat) (children : List Node) (len : Nat)
    (tail : List Node) :
    insertInner (Node.nonLeaf pfx children len :: tail) [] =
      (Node.leaf [] :: Node.nonLeaf pfx children len :: tail, true) := by
  simp [insertInner]

theorem insertInner_nil_cons (kh : Nat) (kt : List Nat) :
    insertInner [] (kh :: kt) = ([Node.leaf (kh :: kt)], true) := by
  simp [insertInner]

theorem nodeWF_leaf (rest : List Nat) : NodeWF (Node.leaf rest) := by
  rw [NodeWF]
  trivial

theorem nodesWF_nil : NodesWF [] := by
  rw [NodesWF]
  trivial

/-- Main invariant theorem for insert_inner: on a well-formed sibling list it
preserves well-formedness, its effect on the represented strings is exactly
sortedInsert, it reports true exactly for new keys, it leaves the list untouched
when it reports false, and the leading byte of the first node is either unchanged
or that of the inserted key. -/
theorem insertInner_spec :
    ∀ (vec : List Node) (k : List Nat), NodesWF vec →
      NodesWF (insertInner vec k).1 ∧
      nodesStrings (insertInner vec k).1 = sortedInsert k (nodesStrings vec) ∧
      ((insertInner vec k).2 = true ↔ k ∉ nodesStrings vec) ∧
      ((insertInner vec k).2 = false → (insertInner vec k).1 = vec) ∧
      ((insertInner vec k).1.head?.map headByte = vec.head?.map headByte ∨
        (insertInner vec k).1.head?.map headByte = some k.head?)
  | vec, [], hWF => by
    match vec with
    | [] =>
      rw [insertInner_nil_nil]
      refine ⟨?_, ?_, ?_, ?_, ?_⟩
      · show NodesWF [Node.leaf []]
        rw [nodesWF_cons_iff]
        exact ⟨nodeWF_leaf [], trivial, nodesWF_nil⟩
      · show nodesStrings [Node.leaf []] = sortedInsert [] (nodesStrings [])
        simp [sortedInsert]
      · show true = true ↔ [] ∉ nodesStrings []
        simp
      · show true = false → _
        simp
      · exact Or.inr rfl
    | Node.leaf [] :: tail =>
      rw [insertInner_emptyLeaf_nil]
      refine ⟨hWF, ?_, ?_, fun _ => rfl, Or.inl rfl⟩
      · show nodesStrings (Node.leaf [] :: tail) = _
        simp only [nodesStrings_cons, nodeStrings_leaf, List.singleton_append]
        rw [sortedInsert_cons_of_eq _ (lexCmp_self [])]
      · show false = true ↔ [] ∉ nodesStrings (Node.leaf [] :: tail)
        simp
    | Node.leaf (rh :: rt) :: tail =>
      obtain ⟨hn, hchain, hWFtail⟩ := nodesWF_cons_iff.mp hWF
      rw [insertInner_leaf_nil]
      refine ⟨?_, ?_, ?_, ?_, ?_⟩
      · show NodesWF (Node.leaf [] :: Node.leaf (rh :: rt) :: tail)
        rw [nodesWF_cons_iff]
        exact ⟨nodeWF_leaf [], trivial, hWF⟩
      · show nodesStrings (Node.leaf [] :: Node.leaf (rh :: rt) :: tail) = _
        simp only [nodesStrings_cons, nodeStrings_leaf, List.singleton_append]
        rw [sortedInsert_cons_of_lt _ (by rw [lexCmp])]
      · show true = true ↔ [] ∉ nodesStrings (Node.leaf (rh :: rt) :: tail)
        simp only [true_iff, nodesStrings_cons, nodeStrings_leaf, List.mem_append,
          List.mem_singleton]
        rintro (h | h)
        · exact List.cons_ne_nil rh rt h.symm
        · have := hbLt_headByte_of_mem_tail hWF h
          simp [headByte, hbLt] at this
      · show true = false → _
        simp
      · refine Or.inr ?_
        show some (headByte (Node.leaf [])) = some (List.head? [])
        rfl
    | Node.nonLeaf pfx children len :: tail =>
      obtain ⟨hn, hchain, hWFtail⟩ := nodesWF_cons_iff.mp hWF
      obtain ⟨hpfx, hlen, hcWF⟩ := nodeWF_nonLeaf_iff.mp hn
      obtain ⟨ph, pt, rfl⟩ : ∃ ph pt, pfx = ph :: pt := by
        cases pfx with
        | nil => exact absurd rfl hpfx
        | cons x xs => exact ⟨x, xs, rfl⟩
      rw [insertInner_nonLeaf_nil]
      refine ⟨?_, ?_, ?_, ?_, ?_⟩
      · show NodesWF (Node.leaf [] :: Node.nonLeaf (ph :: pt) children len :: tail)
        rw [nodesWF_cons_iff]
        exact ⟨nodeWF_leaf [], trivial, hWF⟩
      · show nodesStrings (Node.leaf [] :: Node.nonLeaf (ph :: pt) children len :: tail) = _
        simp only [nodesStrings_cons, nodeStrings_leaf, List.singleton_append]
        rw [sortedInsert_of_lt_all]
        intro s hs
        rw [List.mem_append] at hs
        apply lexCmp_nil_lt
        rcases hs with hs | hs
        · have := head?_mem_nodeStrings hn hs
          intro hnil
          rw [hnil] at this
          simp [headByte] at this
        · have := hbLt_headByte_of_mem_tail hWF hs
          intro hnil
          rw [hnil] at this
          simp [headByte, hbLt] at this
      · show true = true ↔ [] ∉ nodesStrings (Node.nonLeaf (ph :: pt) children len :: tail)
        simp only [true_iff, nodesStrings_cons, nodeStrings_nonLeaf, List.mem_append,
          List.mem_map]
        rintro (⟨s, -, hs⟩ | h)
        · exact List.cons_ne_nil ph (pt ++ s) hs
        · have := hbLt_headByte_of_mem_tail hWF h
          simp [headByte, hbLt] at this
      · show true = false → _
        simp
      · refine Or.inr ?_
        show some (headByte (Node.leaf [])) = some (List.head? [])
        rfl
  | [], kh :: kt, hWF => by
    rw [insertInner_nil_cons]
    refine ⟨?_, ?_, ?_, ?_, ?_⟩
    · show NodesWF [Node.leaf (kh :: kt)]
      rw [nodesWF_cons_iff]
      exact ⟨nodeWF_leaf _, trivial, nodesWF_nil⟩
    · show nodesStrings [Node.leaf (kh :: kt)] = sortedInsert (kh :: kt) (nodesStrings [])
      simp [sortedInsert]
    · show true = true ↔ (kh :: kt) ∉ nodesStrings []
      simp
    · show true = false → _
      simp
    · exact Or.inr rfl
  | Node.leaf rest :: ns, kh :: kt, hWF => by
    obtain ⟨hn, hchain, hWFtail⟩ := nodesWF_cons_iff.mp hWF
    match rest with
    | [] =>
      obtain ⟨ih1, ih2, ih3, ih4, ih5⟩ := insertInner_spec ns (kh :: kt) hWFtail
      rw [insertInner_leaf_empty]
      refine ⟨?_, ?_, ?_, ?_, ?_⟩
      · show NodesWF (Node.leaf [] :: (insertInner ns (kh :: kt)).1)
        rw [nodesWF_cons_iff]
        refine ⟨nodeWF_leaf _, ?_, ih1⟩
        exact chainHead_of_heads hchain
          (show hbLt (headByte (Node.leaf [])) ((kh :: kt).head?) from trivial) ih5
      · show nodesStrings (Node.leaf [] :: (insertInner ns (kh :: kt)).1) = _
        simp only [nodesStrings_cons, nodeStrings_leaf, List.singleton_append]
        rw [ih2, sortedInsert_cons_of_gt _ (by rw [lexCmp])]
      · show (insertInner ns (kh :: kt)).2 = true ↔
          (kh :: kt) ∉ nodesStrings (Node.leaf [] :: ns)
        rw [ih3]
        simp only [nodesStrings_cons, nodeStrings_leaf, List.singleton_append,
          List.mem_cons]
        constructor
        · intro h hm
          rcases hm with hm | hm
          · exact List.cons_ne_nil kh kt hm
          · exact h hm
        · intro h hm
          exact h (Or.inr hm)
      · intro hfalse
        have := ih4 hfalse
        show Node.leaf [] :: (insertInner ns (kh :: kt)).1 = _
        rw [this]
      · exact Or.inl rfl
    | rh :: rt =>
      cases hcb : byteCmp kh rh with
      | lt =>
        have hlt : kh < rh := byteCmp_lt_iff.mp hcb
        rw [insertInner_leaf_lt ns kt rt hcb]
        refine ⟨?_, ?_, ?_, ?_, ?_⟩
        · show NodesWF (Node.leaf (kh :: kt) :: Node.leaf (rh :: rt) :: ns)
          rw [nodesWF_cons_iff]
          refine ⟨nodeWF_leaf _, ?_, hWF⟩
          show hbLt (some kh) (some rh)
          exact hlt
        · show nodesStrings (Node.leaf (kh :: kt) :: Node.leaf (rh :: rt) :: ns) = _
          simp only [nodesStrings_cons, nodeStrings_leaf, List.singleton_append]
          rw [sortedInsert_cons_of_lt _ (by
            rw [lexCmp_cons_ne _ _ (by omega)]
            exact hcb)]
        · show true = true ↔ (kh :: kt) ∉ nodesStrings (Node.leaf (rh :: rt) :: ns)
          simp only [true_iff, nodesStrings_cons, nodeStrings_leaf,
            List.singleton_append, List.mem_cons]
          rintro (h | h)
          · exact absurd (List.head_eq_of_cons_eq h) (by omega)
          · exact not_mem_tail_of_head_le hWF rfl (by omega) h
        · show true = false → _
          simp
        · exact Or.inr rfl
      | gt =>
        have hgt : rh < kh := byteCmp_gt_iff.mp hcb
        obtain ⟨ih1, ih2, ih3, ih4, ih5⟩ := insertInner_spec ns (kh :: kt) hWFtail
        rw [insertInner_leaf_gt ns kt rt hcb]
        have hgtall : ∀ s ∈ nodeStrings (Node.leaf (rh :: rt)),
            lexCmp (kh :: kt) s = .gt := by
          intro s hs
          rw [nodeStrings_leaf, List.mem_singleton] at hs
          rw [hs, lexCmp_cons_ne _ _ (by omega)]
          exact hcb
        refine ⟨?_, ?_, ?_, ?_, ?_⟩
        · show NodesWF (Node.leaf (rh :: rt) :: (insertInner ns (kh :: kt)).1)
          rw [nodesWF_cons_iff]
          refine ⟨nodeWF_leaf _, ?_, ih1⟩
          exact chainHead_of_heads hchain (show hbLt (some rh) (some kh) from hgt) ih5
        · show nodesStrings (Node.leaf (rh :: rt) :: (insertInner ns (kh :: kt)).1) = _
          simp only [nodesStrings_cons, nodeStrings_leaf]
          rw [ih2, sortedInsert_append_of_gt (by simpa using hgtall)]
        · show (insertInner ns (kh :: kt)).2 = true ↔
            (kh :: kt) ∉ nodesStrings (Node.leaf (rh :: rt) :: ns)
          rw [ih3]
          simp only [nodesStrings_cons, nodeStrings_leaf, List.singleton_append,
            List.mem_cons]
          constructor
          · intro h hm
            rcases hm with hm | hm
            · exact absurd (List.head_eq_of_cons_eq hm) (by omega)
            · exact h hm
          · intro h hm
            exact h (Or.inr hm)
        · intro hfalse
          have := ih4 hfalse
          show Node.leaf (rh :: rt) :: (insertInner ns (kh :: kt)).1 = _
          rw [this]
        · exact Or.inl rfl
      | eq =>
        have heq : kh = rh := byteCmp_eq_iff.mp hcb
        by_cases hdup : (kh :: kt).length = commonPfx (kh :: kt) (rh :: rt) ∧
            (rh :: rt).length = commonPfx (kh :: kt) (rh :: rt)
        · have hkr : (kh :: kt) = (rh :: rt) := by
            have h1 := commonPfx_take_eq (kh :: kt) (rh :: rt)
            have hll : (kh :: kt).length = (rh :: rt).length := by
              rw [hdup.1, hdup.2]
            rw [← hdup.1, List.take_length, hll, List.take_length] at h1
            exact h1
          rw [insertInner_leaf_dup ns kt rt hcb hdup]
          refine ⟨hWF, ?_, ?_, fun _ => rfl, Or.inl rfl⟩
          · show nodesStrings (Node.leaf (rh :: rt) :: ns) = _
            simp only [nodesStrings_cons, nodeStrings_leaf, List.singleton_append]
            rw [sortedInsert_cons_of_eq _ (lexCmp_eq_iff.mpr hkr)]
          · show false = true ↔ (kh :: kt) ∉ nodesStrings (Node.leaf (rh :: rt) :: ns)
            simp only [nodesStrings_cons, nodeStrings_leaf, List.singleton_append,
              List.mem_cons]
            constructor
            · intro h
              simp at h
            · intro h
              exact absurd (Or.inl hkr) h
        · obtain ⟨hs1, hs2, hs3, hs4⟩ := leafSplit_spec kt rt heq hdup
          rw [insertInner_leaf_split ns kt rt hcb hdup]
          refine ⟨?_, ?_, ?_, ?_, ?_⟩
          · show NodesWF (leafSplitNode kh kt rh rt :: ns)
            rw [nodesWF_cons_iff]
            refine ⟨hs1, ?_, hWFtail⟩
            exact chainHead_congr (show headByte (Node.leaf (rh :: rt)) = _ from hs3.symm)
              hchain
          · show nodesStrings (leafSplitNode kh kt rh rt :: ns) = _
            simp only [nodesStrings_cons, nodeStrings_leaf]
            rw [hs2, ← sortedInsert_append_of_lt
              (lexLt_key_tail hWF rfl (by omega))]
          · show true = true ↔ (kh :: kt) ∉ nodesStrings (Node.leaf (rh :: rt) :: ns)
            simp only [true_iff, nodesStrings_cons, List.mem_append]
            rintro (h | h)
            · exact hs4 h
            · exact not_mem_tail_of_head_le hWF rfl (by omega) h
          · show true = false → _
            simp
          · refine Or.inl ?_
            show some (headByte (leafSplitNode kh kt rh rt)) = _
            rw [hs3]
            rfl
  | Node.nonLeaf pfx children len :: ns, kh :: kt, hWF => by
    obtain ⟨hn, hchain, hWFtail⟩ := nodesWF_cons_iff.mp hWF
    obtain ⟨hpfx, hlen, hcWF⟩ := nodeWF_nonLeaf_iff.mp hn
    match pfx, hpfx with
    | ph :: pt, _ =>
      have hheadA : ∀ s ∈ nodeStrings (Node.nonLeaf (ph :: pt) children len),
          s.head? = some ph := by
        intro s hs
        rw [head?_mem_nodeStrings hn hs]
        rfl
      cases hcb : byteCmp kh ph with
      | lt =>
        have hlt : kh < ph := byteCmp_lt_iff.mp hcb
        rw [insertInner_nonLeaf_lt ns kt pt children len hcb]
        have hltall : ∀ s ∈ nodesStrings (Node.nonLeaf (ph :: pt) children len :: ns),
            lexLt (kh :: kt) s := by
          intro s hs
          rw [nodesStrings_cons, List.mem_append] at hs
          rcases hs with hs | hs
          · exact lexLt_key_node hn rfl hlt s hs
          · exact lexLt_key_tail hWF rfl (by omega) s hs
        refine ⟨?_, ?_, ?_, ?_, ?_⟩
        · show NodesWF (Node.leaf (kh :: kt) :: Node.nonLeaf (ph :: pt) children len :: ns)
          rw [nodesWF_cons_iff]
          refine ⟨nodeWF_leaf _, ?_, hWF⟩
          show hbLt (some kh) (some ph)
          exact hlt
        · show nodesStrings (Node.leaf (kh :: kt) ::
              Node.nonLeaf (ph :: pt) children len :: ns) = _
          simp only [nodesStrings_cons, nodeStrings_leaf, List.singleton_append]
          rw [sortedInsert_of_lt_all (by simpa using hltall)]
        · show true = true ↔
            (kh :: kt) ∉ nodesStrings (Node.nonLeaf (ph :: pt) children len :: ns)
          simp only [true_iff]
          intro hmem
          exact lexLt_irrefl _ (hltall _ hmem)
        · show true = false → _
          simp
        · exact Or.inr rfl
      | gt =>
        have hgt : ph < kh := byteCmp_gt_iff.mp hcb
        obtain ⟨ih1, ih2, ih3, ih4, ih5⟩ := insertInner_spec ns (kh :: kt) hWFtail
        rw [insertInner_nonLeaf_gt ns kt pt children len hcb]
        have hgtall : ∀ s ∈ nodeStrings (Node.nonLeaf (ph :: pt) children len),
            lexCmp (kh :: kt) s = .gt := by
          intro s hs
          rw [lexCmp_gt_iff_lt]
          apply lexLt_of_hbLt
          rw [hheadA s hs]
          exact hgt
        refine ⟨?_, ?_, ?_, ?_, ?_⟩
        · show NodesWF (Node.nonLeaf (ph :: pt) children len ::
            (insertInner ns (kh :: kt)).1)
          rw [nodesWF_cons_iff]
          refine ⟨hn, ?_, ih1⟩
          exact chainHead_of_heads hchain (show hbLt (some ph) (some kh) from hgt) ih5
        · show nodesStrings (Node.nonLeaf (ph :: pt) children len ::
            (insertInner ns (kh :: kt)).1) = _
          simp only [nodesStrings_cons]
          rw [ih2, sortedInsert_append_of_gt hgtall]
        · show (insertInner ns (kh :: kt)).2 = true ↔
            (kh :: kt) ∉ nodesStrings (Node.nonLeaf (ph :: pt) children len :: ns)
          rw [ih3]
          simp only [nodesStrings_cons, List.mem_append]
          constructor
          · intro h hm
            rcases hm with hm | hm
            · have hx := hgtall _ hm
              rw [lexCmp_self] at hx
              simp at hx
            · exact h hm
          · intro h hm
            exact h (Or.inr hm)
        · intro hfalse
          have := ih4 hfalse
          show Node.nonLeaf (ph :: pt) children len :: (insertInner ns (kh :: kt)).1 = _
          rw [this]
        · exact Or.inl rfl
      | eq =>
        have heq : kh = ph := byteCmp_eq_iff.mp hcb
        by_cases hrec : (ph :: pt).length = commonPfx (kh :: kt) (ph :: pt)
        · -- the key descends into this node
          obtain ⟨ih1, ih2, ih3, ih4, ih5⟩ := insertInner_spec children
            ((kh :: kt).drop (commonPfx (kh :: kt) (ph :: pt))) hcWF
          rw [insertInner_nonLeaf_rec ns kt pt children len hcb hrec]
          have hptake : (ph :: pt) = (kh :: kt).take (commonPfx (kh :: kt) (ph :: pt)) := by
            rw [commonPfx_take_eq (kh :: kt) (ph :: pt), ← hrec, List.take_length]
          have hksplit : (kh :: kt) =
              (ph :: pt) ++ (kh :: kt).drop (commonPfx (kh :: kt) (ph :: pt)) := by
            conv_lhs => rw [← List.take_append_drop
              (commonPfx (kh :: kt) (ph :: pt)) (kh :: kt), ← hptake]
          have hTall : ∀ s ∈ nodesStrings ns, lexLt (kh :: kt) s :=
            lexLt_key_tail hWF rfl (by omega)
          have hmemA_iff : (kh :: kt) ∈
              nodeStrings (Node.nonLeaf (ph :: pt) children len) ↔
              (kh :: kt).drop (commonPfx (kh :: kt) (ph :: pt)) ∈
                nodesStrings children := by
            rw [nodeStrings_nonLeaf]
            constructor
            · intro hm
              obtain ⟨s, hs, heqs⟩ := List.mem_map.mp hm
              have : (kh :: kt).drop (commonPfx (kh :: kt) (ph :: pt)) = s := by
                apply List.append_right_injective (ph :: pt)
                show (ph :: pt) ++ (kh :: kt).drop (commonPfx (kh :: kt) (ph :: pt)) =
                  (ph :: pt) ++ s
                rw [← hksplit]
                exact heqs.symm
              rw [this]
              exact hs
            · intro hm
              rw [hksplit]
              exact List.mem_map.mpr ⟨_, hm, rfl⟩
          refine ⟨?_, ?_, ?_, ?_, ?_⟩
          · show NodesWF (Node.nonLeaf (ph :: pt)
              (insertInner children ((kh :: kt).drop
                (commonPfx (kh :: kt) (ph :: pt)))).1
              (if (insertInner children ((kh :: kt).drop
                (commonPfx (kh :: kt) (ph :: pt)))).2 then len + 1 else len) :: ns)
            rw [nodesWF_cons_iff, nodeWF_nonLeaf_iff]
            refine ⟨⟨List.cons_ne_nil ph pt, ?_, ih1⟩, ?_, hWFtail⟩
            · by_cases hres : (insertInner children ((kh :: kt).drop
                (commonPfx (kh :: kt) (ph :: pt)))).2 = true
              · rw [if_pos hres, ih2,
                  length_sortedInsert_of_not_mem (ih3.mp hres), hlen]
              · have hres' : (insertInner children ((kh :: kt).drop
                    (commonPfx (kh :: kt) (ph :: pt)))).2 = false := by
                  revert hres
                  cases (insertInner children ((kh :: kt).drop
                    (commonPfx (kh :: kt) (ph :: pt)))).2 <;> simp
                rw [if_neg hres, ih4 hres', hlen]
            · exact chainHead_congr rfl hchain
          · show nodesStrings (Node.nonLeaf (ph :: pt)
              (insertInner children ((kh :: kt).drop
                (commonPfx (kh :: kt) (ph :: pt)))).1 _ :: ns) = _
            simp only [nodesStrings_cons, nodeStrings_nonLeaf]
            rw [ih2, ← map_sortedInsert, ← hksplit,
              sortedInsert_append_of_lt hTall]
          · show (insertInner children ((kh :: kt).drop
              (commonPfx (kh :: kt) (ph :: pt)))).2 = true ↔
              (kh :: kt) ∉ nodesStrings (Node.nonLeaf (ph :: pt) children len :: ns)
            rw [ih3]
            simp only [nodesStrings_cons, List.mem_append]
            constructor
            · intro h hm
              rcases hm with hm | hm
              · exact h (hmemA_iff.mp hm)
              · exact lexLt_irrefl _ (hTall _ hm)
            · intro h hm
              exact h (Or.inl (hmemA_iff.mpr hm))
          · intro hfalse
            have h1 := ih4 hfalse
            show Node.nonLeaf (ph :: pt) _ _ :: ns = _
            rw [h1, if_neg (by rw [hfalse]; simp)]
          · exact Or.inl rfl
        · obtain ⟨hs1, hs2, hs3, hs4⟩ :=
            nonLeafSplit_spec kt pt children len heq hcWF hlen hrec
          rw [insertInner_nonLeaf_split ns kt pt children len hcb hrec]
          have hTall : ∀ s ∈ nodesStrings ns, lexLt (kh :: kt) s :=
            lexLt_key_tail hWF rfl (by omega)
          refine ⟨?_, ?_, ?_, ?_, ?_⟩
          · show NodesWF (nonLeafSplitNode kh kt ph pt children len :: ns)
            rw [nodesWF_cons_iff]
            refine ⟨hs1, ?_, hWFtail⟩
            exact chainHead_congr
              (show headByte (Node.nonLeaf (ph :: pt) children len) = _ from hs3.symm)
              hchain
          · show nodesStrings (nonLeafSplitNode kh kt ph pt children len :: ns) = _
            simp only [nodesStrings_cons]
            rw [hs2, ← sortedInsert_append_of_lt hTall]
          · show true = true ↔
              (kh :: kt) ∉ nodesStrings (Node.nonLeaf (ph :: pt) children len :: ns)
            simp only [true_iff, nodesStrings_cons, List.mem_append]
            rintro (h | h)
            · exact hs4 h
            · exact lexLt_irrefl _ (hTall _ h)
          · show true = false → _
            simp
          · refine Or.inl ?_
            show some (headByte (nonLeafSplitNode kh kt ph pt children len)) = _
            rw [hs3]
            rfl

/-! ## Trie-level correctness -/

theorem lexLt_asymm {a b : List Nat} (h : lexLt a b) : ¬ lexLt b a :=
  fun h2 => lexLt_irrefl a (lexLt_trans h h2)

theorem trieWF_new : TrieWF IndexTrie.new := by
  refine ⟨nodesWF_nil, ?_⟩
  simp [IndexTrie.new]

theorem trie_insert_spec {t : IndexTrie} (hWF : TrieWF t) (k : List Nat) :
    TrieWF (t.insert k).1 ∧
    IndexTrie.strings (t.insert k).1 = sortedInsert k (IndexTrie.strings t) ∧
    ((t.insert k).2 = true ↔ k ∉ IndexTrie.strings t) ∧
    ((t.insert k).2 = false → (t.insert k).1 = t) := by
  obtain ⟨hroots, hlen⟩ := hWF
  obtain ⟨h1, h2, h3, h4, -⟩ := insertInner_spec t.roots k hroots
  refine ⟨⟨h1, ?_⟩, h2, h3, ?_⟩
  · show (if (insertInner t.roots k).2 then t.len + 1 else t.len) =
      (nodesStrings (insertInner t.roots k).1).length
    by_cases hr : (insertInner t.roots k).2 = true
    · rw [if_pos hr, h2, length_sortedInsert_of_not_mem (h3.mp hr), hlen]
    · have hr' : (insertInner t.roots k).2 = false := by
        revert hr
        cases (insertInner t.roots k).2 <;> simp
      rw [if_neg hr, h4 hr', hlen]
  · intro hfalse
    show (⟨(insertInner t.roots k).1, _⟩ : IndexTrie) = t
    have hr : (insertInner t.roots k).2 = false := hfalse
    rw [h4 hr, if_neg (by rw [hr]; simp)]

theorem buildTrie_loop :
    ∀ (ws : List (List Nat)) (t : IndexTrie), TrieWF t →
      TrieWF (ws.foldl (fun t w => (t.insert w).1) t) ∧
      (∀ s, s ∈ IndexTrie.strings (ws.foldl (fun t w => (t.insert w).1) t) ↔
        s ∈ ws ∨ s ∈ IndexTrie.strings t)
  | [], t, hWF => by
    refine ⟨hWF, ?_⟩
    simp
  | w :: ws, t, hWF => by
    obtain ⟨hWF1, hstr, -, -⟩ := trie_insert_spec hWF w
    obtain ⟨ih1, ih2⟩ := buildTrie_loop ws (t.insert w).1 hWF1
    rw [List.foldl_cons]
    refine ⟨ih1, ?_⟩
    intro s
    rw [ih2 s, hstr, mem_sortedInsert]
    simp only [List.mem_cons]
    tauto

theorem buildTrie_wf (ws : List (List Nat)) : TrieWF (buildTrie ws) :=
  (buildTrie_loop ws IndexTrie.new trieWF_new).1

theorem mem_buildTrie (ws : List (List Nat)) (s : List Nat) :
    s ∈ IndexTrie.strings (buildTrie ws) ↔ s ∈ ws := by
  rw [buildTrie, (buildTrie_loop ws IndexTrie.new trieWF_new).2 s]
  simp [IndexTrie.strings, IndexTrie.new]

theorem trie_getStr_of_mem {t : IndexTrie} (hWF : TrieWF t) {k : List Nat}
    (hk : k ∈ IndexTrie.strings t) :
    t.getStr k = some (idxOfStr k (IndexTrie.strings t)) := by
  rw [IndexTrie.getStr, getStrInner_eq_of_mem t.roots hWF.1 k hk 0]
  simp [IndexTrie.strings]

theorem trie_getStr_some {t : IndexTrie} {k : List Nat} {j : Nat}
    (h : t.getStr k = some j) : k ∈ IndexTrie.strings t :=
  getStrInner_some_mem t.roots k 0 j h

theorem trie_getIdx {t : IndexTrie} (hWF : TrieWF t) (i : Nat) :
    t.getIdx i = (IndexTrie.strings t)[i]? := by
  rw [IndexTrie.getIdx, getIdxInner_eq t.roots hWF.1 i []]
  simp [IndexTrie.strings]

theorem trie_strings_pairwise {t : IndexTrie} (hWF : TrieWF t) :
    (IndexTrie.strings t).Pairwise lexLt :=
  nodesStrings_pairwise t.roots hWF.1

theorem trie_strings_nodup {t : IndexTrie} (hWF : TrieWF t) :
    (IndexTrie.strings t).Nodup :=
  nodesStrings_nodup t.roots hWF.1

theorem trie_len_eq {t : IndexTrie} (hWF : TrieWF t) :
    t.len = (IndexTrie.strings t).length := hWF.2

/-! ## Claim theorems for the bijective indexable trie -/

/-- C1: for every trie built by any sequence of insertions into an empty trie,
the two lookups form a bijection: for every inserted string s, string-to-rank
lookup yields a rank r whose rank-to-string lookup returns s, and for every rank
r below len, rank-to-string lookup yields a string whose string-to-rank lookup
returns r. -/
theorem C1_trie_bijection (ws : List (List Nat)) :
    (∀ s ∈ ws, ∃ r, (buildTrie ws).getStr s = some r ∧
      (buildTrie ws).getIdx r = some s) ∧
    (∀ r < (buildTrie ws).len, ∃ s, (buildTrie ws).getIdx r = some s ∧
      (buildTrie ws).getStr s = some r) := by
  have hWF := buildTrie_wf ws
  constructor
  · intro s hs
    have hmem : s ∈ IndexTrie.strings (buildTrie ws) := (mem_buildTrie ws s).mpr hs
    refine ⟨idxOfStr s (IndexTrie.strings (buildTrie ws)),
      trie_getStr_of_mem hWF hmem, ?_⟩
    rw [trie_getIdx hWF]
    exact getElem?_idxOfStr hmem
  · intro r hr
    rw [trie_len_eq hWF] at hr
    refine ⟨(IndexTrie.strings (buildTrie ws))[r], ?_, ?_⟩
    · rw [trie_getIdx hWF]
      exact List.getElem?_eq_getElem hr
    · have hmem := List.getElem_mem hr
      rw [trie_getStr_of_mem hWF hmem,
        idxOfStr_getElem? (trie_strings_nodup hWF) (List.getElem?_eq_getElem hr)]

theorem C1_witness :
    ∃ r, (buildTrie [[1, 2], [1]]).getStr [1, 2] = some r ∧
      (buildTrie [[1, 2], [1]]).getIdx r = some [1, 2] :=
  (C1_trie_bijection [[1, 2], [1]]).1 [1, 2] (by simp)

/-- C3: inserting a string that is already present returns false and leaves the
trie unchanged: the length and every string-to-rank and rank-to-string lookup
give the same results as before. -/
theorem C3_idempotent_insert (t : IndexTrie) (s : List Nat) (hWF : TrieWF t)
    (hs : s ∈ IndexTrie.strings t) :
    (t.insert s).2 = false ∧ (t.insert s).1 = t ∧ (t.insert s).1.len = t.len ∧
    (∀ u, (t.insert s).1.getStr u = t.getStr u) ∧
    (∀ r, (t.insert s).1.getIdx r = t.getIdx r) := by
  obtain ⟨-, -, h3, h4⟩ := trie_insert_spec hWF s
  have hret : (t.insert s).2 = false := by
    cases hb : (t.insert s).2 with
    | false => rfl
    | true => exact absurd (h3.mp hb) (by simpa using hs)
  have heq := h4 hret
  exact ⟨hret, heq, by rw [heq], fun u => by rw [heq], fun r => by rw [heq]⟩

theorem C3_witness :
    ((buildTrie [[5]]).insert [5]).2 = false ∧
    ((buildTrie [[5]]).insert [5]).1 = buildTrie [[5]] ∧
    ((buildTrie [[5]]).insert [5]).1.len = (buildTrie [[5]]).len ∧
    (∀ u, ((buildTrie [[5]]).insert [5]).1.getStr u = (buildTrie [[5]]).getStr u) ∧
    (∀ r, ((buildTrie [[5]]).insert [5]).1.getIdx r = (buildTrie [[5]]).getIdx r) :=
  C3_idempotent_insert (buildTrie [[5]]) [5] (buildTrie_wf [[5]])
    ((mem_buildTrie [[5]] [5]).mpr (by simp))

/-- C2: after inserting any finite sequence of strings into an empty trie,
mapping the ranks 0..len through rank-to-string lookup yields exactly the sorted
(strict lexicographic byte order), deduplicated set of inserted strings; the
iterator (whose produced sequence is IndexTrie.strings) yields that same
ascending sequence; and a successful insertion of s increments by one the rank
of every present string above s and preserves the rank of every string below s. -/
theorem C2_dense_ranking (ws : List (List Nat)) (s : List Nat) :
    ((List.range (buildTrie ws).len).map (buildTrie ws).getIdx =
      (IndexTrie.strings (buildTrie ws)).map some) ∧
    (IndexTrie.strings (buildTrie ws)).Pairwise lexLt ∧
    (∀ u, u ∈ IndexTrie.strings (buildTrie ws) ↔ u ∈ ws) ∧
    (((buildTrie ws).insert s).2 = true →
      ∀ u r, (buildTrie ws).getStr u = some r →
        (lexLt s u → ((buildTrie ws).insert s).1.getStr u = some (r + 1)) ∧
        (lexLt u s → ((buildTrie ws).insert s).1.getStr u = some r)) := by
  have hWF := buildTrie_wf ws
  refine ⟨?_, trie_strings_pairwise hWF, mem_buildTrie ws, ?_⟩
  · apply List.ext_getElem?
    intro i
    rw [List.getElem?_map, List.getElem?_map]
    by_cases hi : i < (buildTrie ws).len
    · rw [List.getElem?_range hi, Option.map_some', trie_getIdx hWF,
        List.getElem?_eq_getElem (by rw [← trie_len_eq hWF]; exact hi),
        Option.map_some']
    · have h1 : (List.range (buildTrie ws).len)[i]? = none := by
        apply List.getElem?_eq_none
        simpa using Nat.le_of_not_lt hi
      have h2 : (IndexTrie.strings (buildTrie ws))[i]? = none := by
        apply List.getElem?_eq_none
        rw [← trie_len_eq hWF]
        exact Nat.le_of_not_lt hi
      rw [h1, h2]
      rfl
  · intro hnew u r hu
    obtain ⟨hWF1, hstr, h3, -⟩ := trie_insert_spec hWF s
    have hsnot : s ∉ IndexTrie.strings (buildTrie ws) := h3.mp hnew
    have humem : u ∈ IndexTrie.strings (buildTrie ws) := trie_getStr_some hu
    have hridx : r = idxOfStr u (IndexTrie.strings (buildTrie ws)) := by
      have := trie_getStr_of_mem hWF humem
      rw [hu] at this
      exact Option.some_inj.mp this
    have humem' : u ∈ IndexTrie.strings ((buildTrie ws).insert s).1 := by
      rw [hstr, mem_sortedInsert]
      exact Or.inr humem
    have hidx := idxOfStr_sortedInsert (trie_strings_pairwise hWF) hsnot u humem
    constructor
    · intro hlt
      rw [trie_getStr_of_mem hWF1 humem', hstr, hidx, if_pos hlt, hridx]
    · intro hlt
      rw [trie_getStr_of_mem hWF1 humem', hstr, hidx,
        if_neg (lexLt_asymm hlt), hridx]

theorem C2_witness :
    ((List.range (buildTrie [[3], [1]]).len).map (buildTrie [[3], [1]]).getIdx =
      (IndexTrie.strings (buildTrie [[3], [1]])).map some) ∧
    (IndexTrie.strings (buildTrie [[3], [1]])).Pairwise lexLt ∧
    (∀ u, u ∈ IndexTrie.strings (buildTrie [[3], [1]]) ↔ u ∈ [[3], [1]]) ∧
    (((buildTrie [[3], [1]]).insert [2]).2 = true →
      ∀ u r, (buildTrie [[3], [1]]).getStr u = some r →
        (lexLt [2] u → ((buildTrie [[3], [1]]).insert [2]).1.getStr u = some (r + 1)) ∧
        (lexLt u [2] → ((buildTrie [[3], [1]]).insert [2]).1.getStr u = some r)) :=
  C2_dense_ranking [[3], [1]] [2]

/-! ## The packed symmetric matrix (src/graph/lower_triangular.rs)

LowerTriangular wraps a Vec; the Index/IndexMut impls map an unordered index pair
to the linear slot row*(row+1)/2 + col with row the larger and col the smaller
index. Out-of-range access panics in Rust; reads are modelled with Option and
writes with List.set (which leaves the list unchanged out of range); both are
only used in range under the graph invariant. -/

/-- The linear slot for an unordered index pair
(Index for LowerTriangular in src/graph/lower_triangular.rs). -/
def ltSlot (i j : Nat) : Nat :=
  let row := max i j
  let col := min i j
  row * (row + 1) / 2 + col

/-- Reading the slot of a pair (Index for LowerTriangular). -/
def ltRead {T : Type} (m : List T) (i j : Nat) : Option T :=
  m[ltSlot i j]?

/-- Writing the slot of a pair (IndexMut for LowerTriangular followed by an
assignment). -/
def ltWrite {T : Type} (m : List T) (i j : Nat) (v : T) : List T :=
  m.set (ltSlot i j) v

theorem ltSlot_comm (i j : Nat) : ltSlot i j = ltSlot j i := by
  simp [ltSlot, Nat.max_comm, Nat.min_comm]

theorem ltSlot_of_le {row col : Nat} (h : col ≤ row) :
    ltSlot row col = row * (row + 1) / 2 + col := by
  simp [ltSlot, Nat.max_eq_left h, Nat.min_eq_right h]

theorem triangle_succ (n : Nat) : (n + 1) * (n + 2) / 2 = n * (n + 1) / 2 + (n + 1) := by
  have h : (n + 1) * (n + 2) = n * (n + 1) + 2 * (n + 1) := by ring
  rw [h, Nat.add_mul_div_left _ _ (by omega : (0 : Nat) < 2)]

theorem triangle_mono {m n : Nat} (h : m ≤ n) : m * (m + 1) / 2 ≤ n * (n + 1) / 2 :=
  Nat.div_le_div_right (Nat.mul_le_mul h (by omega))

theorem ltSlot_lt {row col N : Nat} (hcol : col ≤ row) (hrow : row < N) :
    ltSlot row col < N * (N + 1) / 2 := by
  rw [ltSlot_of_le hcol]
  have h1 : row * (row + 1) / 2 + col + 1 ≤ (row + 1) * (row + 2) / 2 := by
    rw [triangle_succ]
    omega
  have h2 : (row + 1) * (row + 2) / 2 ≤ N * (N + 1) / 2 := triangle_mono hrow
  omega

theorem ltSlot_inj {row1 col1 row2 col2 : Nat} (h1 : col1 ≤ row1) (h2 : col2 ≤ row2)
    (heq : ltSlot row1 col1 = ltSlot row2 col2) : row1 = row2 ∧ col1 = col2 := by
  rw [ltSlot_of_le h1, ltSlot_of_le h2] at heq
  rcases Nat.lt_trichotomy row1 row2 with hlt | hr | hlt
  · exfalso
    have ha : row1 * (row1 + 1) / 2 + col1 + 1 ≤ (row1 + 1) * (row1 + 2) / 2 := by
      rw [triangle_succ]
      omega
    have hb : (row1 + 1) * (row1 + 2) / 2 ≤ row2 * (row2 + 1) / 2 := triangle_mono hlt
    omega
  · subst hr
    omega
  · exfalso
    have ha : row2 * (row2 + 1) / 2 + col2 + 1 ≤ (row2 + 1) * (row2 + 2) / 2 := by
      rw [triangle_succ]
      omega
    have hb : (row2 + 1) * (row2 + 2) / 2 ≤ row1 * (row1 + 1) / 2 := triangle_mono hlt
    omega

/-! ## The fixed-vocabulary adjacency-matrix graph (src/graph/adj_matrix.rs) -/

/-- struct AMGraph: a vocabulary index plus the packed lower-triangular edge
storage of optional weights. -/
structure AMGraph (E : Type) where
  map : IndexTrie
  edges : List (Option E)

/-- AMGraph::new: allocates one default (absent) slot per unordered vertex pair. -/
def AMGraph.new {E : Type} (map : IndexTrie) : AMGraph E :=
  { map := map,
    edges := (List.range (map.len * (map.len + 1) / 2)).map (fun _ => none) }

/-- AMGraph::len. -/
def AMGraph.vertLen {E : Type} (g : AMGraph E) : Nat := g.map.len

/-- AMGraph::vertices: iterates the vocabulary index. -/
def AMGraph.vertices {E : Type} (g : AMGraph E) : List (List Nat) :=
  IndexTrie.strings g.map

/-- AMGraph::get: resolves both labels through the vocabulary index, failing if
either is unknown, then reads the packed slot. The Rust panic on an
out-of-range slot is totalised by getD; it is unreachable under GraphWF. -/
def AMGraph.get {E : Type} (g : AMGraph E) (v1 v2 : List Nat) :
    Except Unit (Option E) :=
  match g.map.getStr v1 with
  | none => .error ()
  | some i =>
    match g.map.getStr v2 with
    | none => .error ()
    | some j => .ok ((ltRead g.edges i j).getD none)

/-- AMGraph::get_mut followed by assigning the returned slot: resolves both
labels, failing if either is unknown, then writes the packed slot. -/
def AMGraph.set {E : Type} (g : AMGraph E) (v1 v2 : List Nat) (w : Option E) :
    Except Unit (AMGraph E) :=
  match g.map.getStr v1 with
  | none => .error ()
  | some i =>
    match g.map.getStr v2 with
    | none => .error ()
    | some j => .ok { g with edges := ltWrite g.edges i j w }

/-- AMGraph::contains_vertex. -/
def AMGraph.containsVertex {E : Type} (g : AMGraph E) (v : List Nat) : Bool :=
  (g.map.getStr v).isSome

/-- The label of a rank, as Edges::next recovers it: map.get(rank).unwrap().
The unwrap is totalised with an empty default; under GraphWF and rank < len the
lookup always succeeds. -/
def AMGraph.label {E : Type} (g : AMGraph E) (r : Nat) : List Nat :=
  (g.map.getIdx r).getD []

/-- The sequence produced by the Edges iterator (Edges::next in
src/graph/adj_matrix.rs), embedded as a recursive function of the iterator
state (row, col): while row < len, read the slot at (row, col), advance the
state (next column, wrapping to the next row past the diagonal), and emit a
triple of the two labels and the weight whenever the slot is present. -/
def AMGraph.edgesFrom {E : Type} (g : AMGraph E) (row col : Nat) :
    List (List Nat × List Nat × E) :=
  if row < g.map.len then
    match (ltRead g.edges row col).getD none with
    | some e =>
      if col + 1 > row then (g.label row, g.label col, e) :: g.edgesFrom (row + 1) 0
      else (g.label row, g.label col, e) :: g.edgesFrom row (col + 1)
    | none =>
      if col + 1 > row then g.edgesFrom (row + 1) 0
      else g.edgesFrom row (col + 1)
  else []
  termination_by (g.map.len - row, row + 1 - col)
  decreasing_by
  · apply Prod.Lex.left
    omega
  · apply Prod.Lex.right
    omega
  · apply Prod.Lex.left
    omega
  · apply Prod.Lex.right
    omega

/-- AMGraph::edges starts the iterator at (0, 0). Named edgesList because the
structure field for the raw storage is already called edges. -/
def AMGraph.edgesList {E : Type} (g : AMGraph E) : List (List Nat × List Nat × E) :=
  g.edgesFrom 0 0

/-- Well-formedness of a graph: its vocabulary trie is well-formed and the edge
storage has exactly one slot per unordered vertex pair. -/
def GraphWF {E : Type} (g : AMGraph E) : Prop :=
  TrieWF g.map ∧ g.edges.length = g.map.len * (g.map.len + 1) / 2

theorem ltSlot_eq_maxmin (i j : Nat) : ltSlot i j = ltSlot (max i j) (min i j) := by
  simp [ltSlot, Nat.max_eq_left (min_le_max (a := i) (b := j)),
    Nat.min_eq_right (min_le_max (a := i) (b := j))]

theorem ltSlot_lt_of_max {i j N : Nat} (h : max i j < N) :
    ltSlot i j < N * (N + 1) / 2 := by
  rw [ltSlot_eq_maxmin]
  exact ltSlot_lt min_le_max h

theorem trie_getStr_lt_len {t : IndexTrie} (hWF : TrieWF t) {v : List Nat} {r : Nat}
    (h : t.getStr v = some r) : r < t.len := by
  have hmem := trie_getStr_some h
  have := trie_getStr_of_mem hWF hmem
  rw [h] at this
  rw [trie_len_eq hWF, Option.some_inj.mp this]
  exact idxOfStr_lt_length hmem

/-- C4: the packed symmetric matrix stores an unordered pair (i, j) with
max(i,j) < N in the single linear slot row*(row+1)/2 + col for row = max(i,j)
and col = min(i,j); (i, j) and (j, i) address the same slot, a value written at
(i, j) is read back at (j, i), and at the graph level a successful
set(x, y, w) makes both get(x, y) and get(y, x) yield w. -/
theorem C4_symmetric_storage {T E : Type} (m : List T) (v : T) (i j N : Nat)
    (hN : max i j < N) (hm : m.length = N * (N + 1) / 2)
    (g : AMGraph E) (hg : GraphWF g) (x y : List Nat) (w : E) :
    ltSlot i j = ltSlot j i ∧
    ltSlot i j = (max i j) * (max i j + 1) / 2 + min i j ∧
    ltRead (ltWrite m i j v) j i = some v ∧
    (∀ g', g.set x y (some w) = .ok g' →
      g'.get x y = .ok (some w) ∧ g'.get y x = .ok (some w)) := by
  have hslot : ltSlot i j < m.length := by
    rw [hm]
    exact ltSlot_lt_of_max hN
  refine ⟨ltSlot_comm i j, rfl, ?_, ?_⟩
  · rw [ltRead, ltWrite, ltSlot_comm j i]
    exact List.getElem?_set_self hslot
  · intro g' hset
    rw [AMGraph.set] at hset
    cases hx : g.map.getStr x with
    | none => rw [hx] at hset; exact absurd hset (by simp)
    | some a =>
      cases hy : g.map.getStr y with
      | none => rw [hx, hy] at hset; exact absurd hset (by simp)
      | some b =>
        rw [hx, hy] at hset
        have hg' : g' = { g with edges := ltWrite g.edges a b (some w) } :=
          (Except.ok.inj hset).symm
        have hmapeq : g'.map = g.map := by rw [hg']
        have hslot' : ltSlot a b < g.edges.length := by
          rw [hg.2]
          exact ltSlot_lt_of_max
            (max_lt (trie_getStr_lt_len hg.1 hx) (trie_getStr_lt_len hg.1 hy))
        constructor
        · rw [AMGraph.get, hmapeq, hx, hy, hg']
          simp only [ltRead, ltWrite]
          rw [List.getElem?_set_self hslot']
          rfl
        · rw [AMGraph.get, hmapeq, hx, hy, hg']
          simp only [ltRead, ltWrite]
          rw [ltSlot_comm b a, List.getElem?_set_self hslot']
          rfl

theorem C4_witness :
    ltSlot 0 1 = ltSlot 1 0 ∧
    ltSlot 0 1 = (max 0 1) * (max 0 1 + 1) / 2 + min 0 1 ∧
    ltRead (ltWrite [true, false, false] 0 1 true) 1 0 = some true ∧
    (∀ g', (AMGraph.new (E := Bool) (buildTrie [[0], [1]])).set [0] [1] (some true) =
        .ok g' →
      g'.get [0] [1] = .ok (some true) ∧ g'.get [1] [0] = .ok (some true)) :=
  C4_symmetric_storage [true, false, false] true 0 1 2 (by decide) (by decide)
    (AMGraph.new (buildTrie [[0], [1]])) ⟨buildTrie_wf [[0], [1]], by
      simp [AMGraph.new]⟩ [0] [1] true

/-- C5: get and set (via get_mut) fail exactly when at least one label does not
resolve in the vocabulary index; the failure is a recoverable error value (no
new graph is produced, so the state is unchanged), and containsVertex holds
exactly when the label resolves. -/
theorem C5_unknown_vertex {E : Type} (g : AMGraph E) (v1 v2 v : List Nat)
    (w : Option E) :
    (g.get v1 v2 = .error () ↔ (g.map.getStr v1 = none ∨ g.map.getStr v2 = none)) ∧
    (g.set v1 v2 w = .error () ↔ (g.map.getStr v1 = none ∨ g.map.getStr v2 = none)) ∧
    (g.containsVertex v = true ↔ (g.map.getStr v).isSome) := by
  refine ⟨?_, ?_, ?_⟩
  · rw [AMGraph.get]
    cases h1 : g.map.getStr v1 with
    | none => simp
    | some i =>
      cases h2 : g.map.getStr v2 with
      | none => simp
      | some j => simp
  · rw [AMGraph.set]
    cases h1 : g.map.getStr v1 with
    | none => simp
    | some i =>
      cases h2 : g.map.getStr v2 with
      | none => simp
      | some j => simp
  · rw [AMGraph.containsVertex]

theorem C5_witness :
    ((AMGraph.new (E := Unit) (buildTrie [[7]])).get [7] [8] = .error () ↔
      ((buildTrie [[7]]).getStr [7] = none ∨ (buildTrie [[7]]).getStr [8] = none)) ∧
    ((AMGraph.new (E := Unit) (buildTrie [[7]])).set [7] [8] (some ()) = .error () ↔
      ((buildTrie [[7]]).getStr [7] = none ∨ (buildTrie [[7]]).getStr [8] = none)) ∧
    ((AMGraph.new (E := Unit) (buildTrie [[7]])).containsVertex [7] = true ↔
      ((buildTrie [[7]]).getStr [7]).isSome) :=
  C5_unknown_vertex (AMGraph.new (buildTrie [[7]])) [7] [8] [7] (some ())

/-- C8: constructing a graph over a vocabulary of N entries allocates exactly
N*(N+1)/2 slots, all absent; hence before any set, get returns a successful
"no edge" outcome for every pair of labels present in the vocabulary. -/
theorem C8_fresh_graph {E : Type} (map : IndexTrie) :
    (AMGraph.new (E := E) map).edges.length = map.len * (map.len + 1) / 2 ∧
    (∀ x ∈ (AMGraph.new (E := E) map).edges, x = none) ∧
    (∀ v1 v2, (map.getStr v1).isSome → (map.getStr v2).isSome →
      (AMGraph.new (E := E) map).get v1 v2 = .ok none) := by
  refine ⟨by simp [AMGraph.new], ?_, ?_⟩
  · intro x hx
    simp only [AMGraph.new] at hx
    obtain ⟨-, -, rfl⟩ := List.mem_map.mp hx
    rfl
  · intro v1 v2 h1 h2
    obtain ⟨i, hi⟩ := Option.isSome_iff_exists.mp h1
    obtain ⟨j, hj⟩ := Option.isSome_iff_exists.mp h2
    have hall : ∀ o ∈ (AMGraph.new (E := E) map).edges, o = none := by
      intro o ho
      simp only [AMGraph.new] at ho
      obtain ⟨-, -, rfl⟩ := List.mem_map.mp ho
      rfl
    rw [AMGraph.get]
    show (match map.getStr v1 with
      | none => Except.error ()
      | some i =>
        match map.getStr v2 with
        | none => Except.error ()
        | some j => Except.ok ((ltRead (AMGraph.new (E := E) map).edges i j).getD none)) = _
    rw [hi, hj]
    show Except.ok ((ltRead (AMGraph.new (E := E) map).edges i j).getD none) = _
    cases hr : ltRead (AMGraph.new (E := E) map).edges i j with
    | none => rfl
    | some x =>
      rw [hall x (by rw [ltRead] at hr; exact List.getElem?_mem hr)]
      rfl

theorem C8_witness :
    (AMGraph.new (E := Unit) (buildTrie [[4], [9]])).edges.length =
      (buildTrie [[4], [9]]).len * ((buildTrie [[4], [9]]).len + 1) / 2 ∧
    (∀ x ∈ (AMGraph.new (E := Unit) (buildTrie [[4], [9]])).edges, x = none) ∧
    (∀ v1 v2, ((buildTrie [[4], [9]]).getStr v1).isSome →
      ((buildTrie [[4], [9]]).getStr v2).isSome →
      (AMGraph.new (E := Unit) (buildTrie [[4], [9]])).get v1 v2 = .ok none) :=
  C8_fresh_graph (buildTrie [[4], [9]])

/-! ## The edge iterator visits pairs in row-major lower-triangular order -/

/-- The sequence of (row, col) states the Edges iterator visits from a given
starting state. -/
def pairsFrom (len row col : Nat) : List (Nat × Nat) :=
  if row < len then
    if col + 1 > row then (row, col) :: pairsFrom len (row + 1) 0
    else (row, col) :: pairsFrom len row (col + 1)
  else []
  termination_by (len - row, row + 1 - col)
  decreasing_by
  · apply Prod.Lex.left
    omega
  · apply Prod.Lex.right
    omega

/-- Reading and labelling one slot, shared by the iterator and its
specification. -/
def edgeAt {E : Type} (g : AMGraph E) (rc : Nat × Nat) :
    Option (List Nat × List Nat × E) :=
  ((ltRead g.edges rc.1 rc.2).getD none).map (fun e => (g.label rc.1, g.label rc.2, e))

/-- The edge sequence the specification describes for C6: one triple per
present slot, visiting pairs in row-major lower-triangular order (rows
ascending from 0 to N-1, columns ascending from 0 through the row index), with
labels recovered by rank-to-string lookup. -/
def edgesSpec {E : Type} (g : AMGraph E) : List (List Nat × List Nat × E) :=
  (((List.range g.map.len).map (fun row =>
    (List.range (row + 1)).map (fun col => (row, col)))).flatten).filterMap (edgeAt g)

theorem edgesFrom_eq_filterMap {E : Type} (g : AMGraph E) :
    ∀ row col, g.edgesFrom row col = (pairsFrom g.map.len row col).filterMap (edgeAt g)
  | row, col => by
    rw [AMGraph.edgesFrom, pairsFrom]
    by_cases hrow : row < g.map.len
    · rw [if_pos hrow, if_pos hrow]
      by_cases hcol : col + 1 > row
      · simp only [if_pos hcol]
        cases hr : (ltRead g.edges row col).getD none with
        | none =>
          show g.edgesFrom (row + 1) 0 = _
          have he : edgeAt g (row, col) = none := by
            simp only [edgeAt]
            rw [hr]
            rfl
          rw [List.filterMap_cons, he, edgesFrom_eq_filterMap g (row + 1) 0]
        | some e =>
          show (g.label row, g.label col, e) :: g.edgesFrom (row + 1) 0 = _
          have he : edgeAt g (row, col) = some (g.label row, g.label col, e) := by
            simp only [edgeAt]
            rw [hr]
            rfl
          rw [List.filterMap_cons, he, edgesFrom_eq_filterMap g (row + 1) 0]
      · simp only [if_neg hcol]
        cases hr : (ltRead g.edges row col).getD none with
        | none =>
          show g.edgesFrom row (col + 1) = _
          have he : edgeAt g (row, col) = none := by
            simp only [edgeAt]
            rw [hr]
            rfl
          rw [List.filterMap_cons, he, edgesFrom_eq_filterMap g row (col + 1)]
        | some e =>
          show (g.label row, g.label col, e) :: g.edgesFrom row (col + 1) = _
          have he : edgeAt g (row, col) = some (g.label row, g.label col, e) := by
            simp only [edgeAt]
            rw [hr]
            rfl
          rw [List.filterMap_cons, he, edgesFrom_eq_filterMap g row (col + 1)]
    · rw [if_neg hrow, if_neg hrow]
      rfl
  termination_by row col => (g.map.len - row, row + 1 - col)
  decreasing_by
  · apply Prod.Lex.left
    omega
  · apply Prod.Lex.left
    omega
  · apply Prod.Lex.right
    omega
  · apply Prod.Lex.right
    omega

theorem pairsFrom_row :
    ∀ (len row col : Nat), col ≤ row → row < len →
      pairsFrom len row col =
        ((List.range (row + 1)).drop col).map (fun c => (row, c)) ++
          pairsFrom len (row + 1) 0
  | len, row, col, hcol, hrow => by
    rw [pairsFrom, if_pos hrow]
    by_cases hc : col + 1 > row
    · have hcr : col = row := by omega
      subst hcr
      rw [if_pos hc]
      have h1 : (List.range (col + 1)).drop col = [col] := by
        rw [List.drop_eq_getElem_cons (by simp)]
        rw [List.drop_eq_nil_of_le (by simp)]
        congr 1
        simp
      rw [h1]
      rfl
    · rw [if_neg hc]
      rw [pairsFrom_row len row (col + 1) (by omega) hrow]
      have h1 : (List.range (row + 1)).drop col =
          col :: (List.range (row + 1)).drop (col + 1) := by
        rw [List.drop_eq_getElem_cons (by simp; omega)]
        congr 1
        simp
      rw [h1]
      rfl
  termination_by len row col => row + 1 - col
  decreasing_by
  · omega

theorem pairsFrom_zero :
    ∀ (len row : Nat), pairsFrom len row 0 =
      (((List.range len).drop row).map (fun r =>
        (List.range (r + 1)).map (fun c => (r, c)))).flatten
  | len, row => by
    by_cases hrow : row < len
    · rw [pairsFrom_row len row 0 (by omega) hrow, List.drop_zero,
        pairsFrom_zero len (row + 1)]
      have h1 : (List.range len).drop row = row :: (List.range len).drop (row + 1) := by
        rw [List.drop_eq_getElem_cons (by simpa using hrow)]
        congr 1
        simp
      rw [h1, List.map_cons, List.flatten_cons]
    · rw [pairsFrom, if_neg hrow,
        List.drop_eq_nil_of_le (by simpa using Nat.le_of_not_lt hrow)]
      rfl
  termination_by len row => len - row
  decreasing_by
  · omega

/-- C6: the Edges iterator yields exactly one triple per present unordered pair,
visiting pairs in row-major lower-triangular order with rows ascending and,
within each row, columns ascending through the row index, skipping absent
slots, with both labels obtained by rank-to-string lookup of the row and column
indices. -/
theorem C6_edges_iteration {E : Type} (g : AMGraph E) (hg : GraphWF g) :
    g.edgesList = edgesSpec g ∧
    (∀ r < g.map.len, ∃ s, g.map.getIdx r = some s ∧ g.label r = s) := by
  constructor
  · rw [AMGraph.edgesList, edgesFrom_eq_filterMap g 0 0, pairsFrom_zero,
      List.drop_zero, edgesSpec]
  · intro r hr
    rw [trie_len_eq hg.1] at hr
    refine ⟨(IndexTrie.strings g.map)[r], ?_, ?_⟩
    · rw [trie_getIdx hg.1]
      exact List.getElem?_eq_getElem hr
    · rw [AMGraph.label, trie_getIdx hg.1, List.getElem?_eq_getElem hr]
      rfl

theorem C6_witness :
    (AMGraph.new (E := Unit) (buildTrie [[2]])).edgesList =
      edgesSpec (AMGraph.new (E := Unit) (buildTrie [[2]])) ∧
    (∀ r < (buildTrie [[2]]).len, ∃ s,
      (buildTrie [[2]]).getIdx r = some s ∧
      (AMGraph.new (E := Unit) (buildTrie [[2]])).label r = s) :=
  C6_edges_iteration (AMGraph.new (buildTrie [[2]]))
    ⟨buildTrie_wf [[2]], by simp [AMGraph.new]⟩

/-! ## Vectorization (src/clustering.rs)

vectorize builds the occurrence counts of all vertex labels in a HashMap, keeps
the labels with count > 3, collects them into a fresh IndexTrie, and fills one
row per graph. The HashMap fold *acc.entry(w).or_insert(0) += 1 is embedded as
an association list updated in place, keyed in first-insertion order; Rust
HashMap iteration order is unspecified, but only the key set and per-key counts
flow onward (ranks are assigned by the order-independent trie), so the
embedding fixes one order without loss. -/

/-- One step of the counting fold of vectorize. -/
def bumpCount : List (List Nat × Nat) → List Nat → List (List Nat × Nat)
  | [], w => [(w, 1)]
  | (k, v) :: rest, w =>
    if k = w then (k, v + 1) :: rest else (k, v) :: bumpCount rest w

/-- The occurrence-count table over all graphs' vertex iterations. -/
def vocabCounts {E : Type} (graphs : List (AMGraph E)) : List (List Nat × Nat) :=
  ((graphs.map (fun g => g.vertices)).flatten).foldl bumpCount []

/-- The shared filtered vocabulary of vectorize: the labels counted more than 3
times, collected into a fresh IndexTrie. -/
def languageOf {E : Type} (graphs : List (AMGraph E)) : IndexTrie :=
  buildTrie (((vocabCounts graphs).filter (fun p => 3 < p.2)).map (fun p => p.1))

/-- Number of occurrences of a string in a list of strings. -/
def countOf (w : List Nat) (ws : List (List Nat)) : Nat :=
  (ws.filter (fun x => x = w)).length

/-- The count an association list records for a key (0 if absent). -/
def lookupCount (w : List Nat) : List (List Nat × Nat) → Nat
  | [] => 0
  | (k, v) :: rest => if k = w then v else lookupCount w rest

theorem lookupCount_bumpCount (w u : List Nat) :
    ∀ (acc : List (List Nat × Nat)),
      lookupCount w (bumpCount acc u) =
        if u = w then lookupCount w acc + 1 else lookupCount w acc
  | [] => by
    rw [bumpCount]
    by_cases h : u = w <;> simp [lookupCount, h]
  | (k, v) :: rest => by
    rw [bumpCount]
    by_cases hku : k = u
    · rw [if_pos hku]
      by_cases huw : u = w
      · have hkw : k = w := by rw [hku, huw]
        simp [lookupCount, hkw, huw]
      · have hkw : ¬ k = w := by rw [hku]; exact huw
        simp [lookupCount, hkw, huw]
    · rw [if_neg hku]
      rw [lookupCount, lookupCount]
      by_cases hkw : k = w
      · have huw : ¬ u = w := by
          rw [← hkw]
          exact fun h => hku h.symm
        simp [hkw, huw]
      · rw [if_neg hkw, if_neg hkw, lookupCount_bumpCount w u rest]

theorem lookupCount_foldl (w : List Nat) :
    ∀ (ws : List (List Nat)) (acc : List (List Nat × Nat)),
      lookupCount w (ws.foldl bumpCount acc) = lookupCount w acc + countOf w ws
  | [], acc => by simp [countOf]
  | u :: us, acc => by
    rw [List.foldl_cons, lookupCount_foldl w us, lookupCount_bumpCount]
    by_cases h : u = w
    · rw [if_pos h]
      simp only [countOf]
      rw [List.filter_cons, if_pos (by simpa using h), List.length_cons]
      omega
    · rw [if_neg h]
      simp only [countOf]
      rw [List.filter_cons, if_neg (by simpa using h)]

theorem mem_keys_bumpCount (w u : List Nat) :
    ∀ (acc : List (List Nat × Nat)),
      w ∈ (bumpCount acc u).map (fun p => p.1) ↔ w = u ∨ w ∈ acc.map (fun p => p.1)
  | [] => by simp [bumpCount]
  | (k, v) :: rest => by
    rw [bumpCount]
    by_cases hku : k = u
    · rw [if_pos hku]
      simp [hku]
    · rw [if_neg hku]
      simp only [List.map_cons, List.mem_cons, mem_keys_bumpCount w u rest]
      tauto

theorem keysNodup_bumpCount (u : List Nat) :
    ∀ (acc : List (List Nat × Nat)), (acc.map (fun p => p.1)).Nodup →
      ((bumpCount acc u).map (fun p => p.1)).Nodup
  | [], _ => by simp [bumpCount]
  | (k, v) :: rest, hnd => by
    rw [bumpCount]
    rw [List.map_cons, List.nodup_cons] at hnd
    by_cases hku : k = u
    · rw [if_pos hku, List.map_cons, List.nodup_cons]
      exact hnd
    · rw [if_neg hku, List.map_cons, List.nodup_cons]
      refine ⟨?_, keysNodup_bumpCount u rest hnd.2⟩
      rw [mem_keys_bumpCount]
      rintro (h | h)
      · exact hku h
      · exact hnd.1 h

theorem keysNodup_foldl :
    ∀ (ws : List (List Nat)) (acc : List (List Nat × Nat)),
      (acc.map (fun p => p.1)).Nodup →
      ((ws.foldl bumpCount acc).map (fun p => p.1)).Nodup
  | [], _, hnd => hnd
  | u :: us, acc, hnd =>
    keysNodup_foldl us (bumpCount acc u) (keysNodup_bumpCount u acc hnd)

theorem lookupCount_eq_of_mem {w : List Nat} {v : Nat} :
    ∀ {acc : List (List Nat × Nat)}, (acc.map (fun p => p.1)).Nodup →
      (w, v) ∈ acc → lookupCount w acc = v
  | [], _, hm => by simp at hm
  | (k, v0) :: rest, hnd, hm => by
    rw [List.map_cons, List.nodup_cons] at hnd
    rw [lookupCount]
    rcases List.mem_cons.mp hm with hm | hm
    · obtain ⟨h1, h2⟩ := Prod.mk.inj hm
      rw [if_pos h1.symm]
      exact h2.symm
    · by_cases hkw : k = w
      · exfalso
        apply hnd.1
        rw [hkw]
        exact List.mem_map.mpr ⟨(w, v), hm, rfl⟩
      · rw [if_neg hkw]
        exact lookupCount_eq_of_mem hnd.2 hm

theorem mem_of_lookupCount {w : List Nat} {v : Nat} (h0 : v ≠ 0) :
    ∀ {acc : List (List Nat × Nat)}, lookupCount w acc = v → (w, v) ∈ acc
  | [], h => by
    rw [lookupCount] at h
    exact absurd h.symm h0
  | (k, v0) :: rest, h => by
    rw [lookupCount] at h
    by_cases hkw : k = w
    · rw [if_pos hkw] at h
      rw [← hkw, ← h]
      exact List.mem_cons_self _ _
    · rw [if_neg hkw] at h
      exact List.mem_cons_of_mem _ (mem_of_lookupCount h0 h)

theorem countOf_eq_zero {w : List Nat} :
    ∀ {l : List (List Nat)}, w ∉ l → countOf w l = 0
  | [], _ => rfl
  | x :: xs, h => by
    have hxw : ¬ x = w := fun he => h (he ▸ List.mem_cons_self x xs)
    rw [countOf, List.filter_cons, if_neg (by simpa using hxw)]
    exact countOf_eq_zero (fun hm => h (List.mem_cons_of_mem x hm))

theorem countOf_flatten (w : List Nat) :
    ∀ (L : List (List (List Nat))), countOf w L.flatten = (L.map (countOf w)).sum
  | [] => by simp [countOf]
  | l :: ls => by
    rw [List.flatten_cons, List.map_cons, List.sum_cons, ← countOf_flatten w ls]
    simp [countOf, List.filter_append]

theorem countOf_of_nodup (w : List Nat) :
    ∀ {l : List (List Nat)}, l.Nodup → countOf w l = if w ∈ l then 1 else 0
  | [], _ => by simp [countOf]
  | x :: xs, hnd => by
    rw [List.nodup_cons] at hnd
    rw [countOf, List.filter_cons]
    by_cases hxw : x = w
    · subst hxw
      rw [if_pos (by simp), if_pos (List.mem_cons_self _ _), List.length_cons]
      have h0 : countOf x xs = 0 := countOf_eq_zero hnd.1
      rw [countOf] at h0
      rw [h0]
    · rw [if_neg (by simpa using hxw)]
      have hif : (if w ∈ x :: xs then (1 : Nat) else 0) = if w ∈ xs then 1 else 0 := by
        by_cases hw : w ∈ xs
        · rw [if_pos hw, if_pos (List.mem_cons_of_mem x hw)]
        · rw [if_neg hw, if_neg ?_]
          intro hm
          rcases List.mem_cons.mp hm with hm | hm
          · exact hxw hm.symm
          · exact hw hm
      rw [hif]
      show countOf w xs = _
      exact countOf_of_nodup w hnd.2

theorem sum_map_ite {α : Type} (p : α → Prop) [DecidablePred p] :
    ∀ l : List α, (l.map (fun a => if p a then 1 else 0)).sum =
      (l.filter (fun a => decide (p a))).length
  | [] => rfl
  | x :: xs => by
    rw [List.map_cons, List.sum_cons, List.filter_cons, sum_map_ite p xs]
    by_cases h : p x
    · rw [if_pos h, if_pos (by simpa using h), List.length_cons]
      omega
    · rw [if_neg h, if_neg (by simpa using h)]
      omega

/-- C10: the shared filtered vocabulary built by vectorize contains exactly the
vertex labels whose total occurrence count over all graphs' vertex sequences is
strictly greater than 3; and since each well-formed graph lists each of its
labels exactly once, that count is the number of input graphs containing the
label, so a label is retained exactly when it appears in at least 4 graphs. -/
theorem C10_frequency_threshold {E : Type} (graphs : List (AMGraph E))
    (hWF : ∀ g ∈ graphs, TrieWF g.map) (w : List Nat) :
    (((languageOf graphs).getStr w).isSome ↔
      3 < countOf w ((graphs.map (fun g => g.vertices)).flatten)) ∧
    countOf w ((graphs.map (fun g => g.vertices)).flatten) =
      (graphs.filter (fun g => decide (w ∈ g.vertices))).length := by
  have hkeys : ((vocabCounts graphs).map (fun p => p.1)).Nodup :=
    keysNodup_foldl _ [] (by simp)
  have hcount : lookupCount w (vocabCounts graphs) =
      countOf w ((graphs.map (fun g => g.vertices)).flatten) := by
    rw [vocabCounts, lookupCount_foldl, lookupCount]
    rw [Nat.zero_add]
  constructor
  · constructor
    · intro hsome
      obtain ⟨r, hr⟩ := Option.isSome_iff_exists.mp hsome
      have hmem := trie_getStr_some hr
      rw [languageOf, mem_buildTrie] at hmem
      obtain ⟨p, hp, hp1⟩ := List.mem_map.mp hmem
      rw [List.mem_filter] at hp
      have hlook : lookupCount w (vocabCounts graphs) = p.2 := by
        apply lookupCount_eq_of_mem hkeys
        have : p = (w, p.2) := by
          rw [← hp1]
        rw [← this]
        exact hp.1
      rw [← hcount, hlook]
      simpa using hp.2
    · intro hgt
      rw [← hcount] at hgt
      have hmem : (w, lookupCount w (vocabCounts graphs)) ∈ vocabCounts graphs :=
        mem_of_lookupCount (by omega) rfl
      have hin : w ∈ (((vocabCounts graphs).filter (fun p => 3 < p.2)).map
          (fun p => p.1)) := by
        refine List.mem_map.mpr ⟨(w, lookupCount w (vocabCounts graphs)), ?_, rfl⟩
        rw [List.mem_filter]
        exact ⟨hmem, by simpa using hgt⟩
      rw [← mem_buildTrie] at hin
      rw [languageOf]
      rw [trie_getStr_of_mem (buildTrie_wf _) hin]
      rfl
  · rw [countOf_flatten, List.map_map]
    have hmap : graphs.map (countOf w ∘ fun g => g.vertices) =
        graphs.map (fun g => if w ∈ g.vertices then 1 else 0) := by
      apply List.map_congr_left
      intro g hg
      show countOf w g.vertices = _
      exact countOf_of_nodup w (trie_strings_nodup (hWF g hg))
    rw [hmap, sum_map_ite]

theorem C10_witness :
    (((languageOf ([] : List (AMGraph Unit))).getStr [0]).isSome ↔
      3 < countOf [0] ((([] : List (AMGraph Unit)).map
        (fun g => g.vertices)).flatten)) ∧
    countOf [0] ((([] : List (AMGraph Unit)).map (fun g => g.vertices)).flatten) =
      (([] : List (AMGraph Unit)).filter (fun g => decide ([0] ∈ g.vertices))).length :=
  C10_frequency_threshold [] (by simp) [0]

/-- term_indices_to_edge_index in src/clustering.rs: the shared feature column
of an unordered pair of vocabulary ranks. -/
def termIndicesToEdgeIndex (i1 i2 : Nat) : Nat :=
  let row := max i1 i2
  let col := min i1 i2
  row * (row + 1) / 2 + col

theorem termIndicesToEdgeIndex_eq_ltSlot (i1 i2 : Nat) :
    termIndicesToEdgeIndex i1 i2 = ltSlot i1 i2 := rfl

theorem termIndicesToEdgeIndex_comm (i1 i2 : Nat) :
    termIndicesToEdgeIndex i1 i2 = termIndicesToEdgeIndex i2 i1 := by
  rw [termIndicesToEdgeIndex_eq_ltSlot, termIndicesToEdgeIndex_eq_ltSlot, ltSlot_comm]

/-- The per-edge step of the row fill in vectorize: if both edge labels resolve
in the shared vocabulary, write the converted weight at the shared column,
otherwise drop the edge. (The closure passed to for_each in vectorize.) -/
def vecStep {E : Type} (language : IndexTrie) (value : E → ℚ) (row : List ℚ)
    (t : List Nat × List Nat × E) : List ℚ :=
  match language.getStr t.1, language.getStr t.2.1 with
  | some i1, some i2 => row.set (termIndicesToEdgeIndex i1 i2) (value t.2.2)
  | _, _ => row

/-- vectorize in src/clustering.rs: build the shared filtered vocabulary, then
one row of d(d+1)/2 zero-initialised cells per graph, filled edge by edge by
vecStep. The f32 cells are modelled as rationals through the abstract
Value-trait conversion. -/
def vectorize {E : Type} (value : E → ℚ) (graphs : List (AMGraph E)) :
    List (List ℚ) :=
  let language := languageOf graphs
  let dim := language.len
  let len := dim * (dim + 1) / 2
  graphs.map (fun g => g.edgesList.foldl (vecStep language value) (List.replicate len 0))

/-- The (column, value) write an edge produces, if any. -/
def vecWrite {E : Type} (language : IndexTrie) (value : E → ℚ)
    (t : List Nat × List Nat × E) : Option (Nat × ℚ) :=
  match language.getStr t.1, language.getStr t.2.1 with
  | some i1, some i2 => some (termIndicesToEdgeIndex i1 i2, value t.2.2)
  | _, _ => none

theorem vecStep_eq {E : Type} (language : IndexTrie) (value : E → ℚ)
    (row : List ℚ) (t : List Nat × List Nat × E) :
    vecStep language value row t =
      match vecWrite language value t with
      | some cv => row.set cv.1 cv.2
      | none => row := by
  cases h1 : language.getStr t.1 <;> cases h2 : language.getStr t.2.1 <;>
    simp [vecStep, vecWrite, h1, h2]

theorem vecWrite_eq_some {E : Type} (language : IndexTrie) (value : E → ℚ)
    (t : List Nat × List Nat × E) (cv : Nat × ℚ) :
    vecWrite language value t = some cv ↔
      ∃ i1 i2, language.getStr t.1 = some i1 ∧ language.getStr t.2.1 = some i2 ∧
        cv = (termIndicesToEdgeIndex i1 i2, value t.2.2) := by
  cases h1 : language.getStr t.1 <;> cases h2 : language.getStr t.2.1 <;>
    simp [vecWrite, h1, h2]
  exact eq_comm

theorem foldl_vecStep {E : Type} (language : IndexTrie) (value : E → ℚ) :
    ∀ (ts : List (List Nat × List Nat × E)) (init : List ℚ),
      ts.foldl (vecStep language value) init =
        (ts.filterMap (vecWrite language value)).foldl
          (fun row cv => row.set cv.1 cv.2) init
  | [], _ => rfl
  | t :: ts, init => by
    rw [List.foldl_cons, List.filterMap_cons]
    cases hw : vecWrite language value t with
    | none =>
      rw [foldl_vecStep language value ts]
      congr 1
      rw [vecStep_eq, hw]
    | some cv =>
      rw [foldl_vecStep language value ts, List.foldl_cons]
      congr 1
      rw [vecStep_eq, hw]

theorem foldl_set_length :
    ∀ (ws : List (Nat × ℚ)) (init : List ℚ),
      (ws.foldl (fun row cv => row.set cv.1 cv.2) init).length = init.length
  | [], _ => rfl
  | cv :: ws, init => by
    rw [List.foldl_cons, foldl_set_length ws, List.length_set]

theorem foldl_set_ne :
    ∀ (ws : List (Nat × ℚ)) (init : List ℚ) (c : Nat),
      (∀ p ∈ ws, p.1 ≠ c) →
      (ws.foldl (fun row cv => row.set cv.1 cv.2) init)[c]? = init[c]?
  | [], _, _, _ => rfl
  | (c0, q0) :: ws, init, c, h => by
    rw [List.foldl_cons,
      foldl_set_ne ws _ c (fun p hp => h p (List.mem_cons_of_mem _ hp))]
    exact List.getElem?_set_ne (h (c0, q0) (List.mem_cons_self _ _))

theorem foldl_set_mem :
    ∀ (ws : List (Nat × ℚ)) (init : List ℚ) (c : Nat) (q : ℚ),
      ws.Pairwise (fun p1 p2 => p1.1 ≠ p2.1) → (c, q) ∈ ws → c < init.length →
      (ws.foldl (fun row cv => row.set cv.1 cv.2) init)[c]? = some q
  | [], _, _, _, _, hm, _ => by simp at hm
  | (c0, q0) :: ws, init, c, q, hpw, hm, hlen => by
    rw [List.foldl_cons]
    rcases List.mem_cons.mp hm with hm | hm
    · obtain ⟨h1, h2⟩ := Prod.mk.inj hm
      subst h1
      subst h2
      rw [foldl_set_ne ws _ c
        (fun p hp => ((List.pairwise_cons.mp hpw).1 p hp).symm)]
      exact List.getElem?_set_self hlen
    · exact foldl_set_mem ws (init.set c0 q0) c q (List.pairwise_cons.mp hpw).2 hm
        (by rw [List.length_set]; exact hlen)

theorem pairwise_filterMap_of {α β : Type} (f : α → Option β) (R : β → β → Prop) :
    ∀ {l : List α}, l.Pairwise (fun a b => ∀ x ∈ f a, ∀ y ∈ f b, R x y) →
      (l.filterMap f).Pairwise R := by
  intro l h
  induction l with
  | nil => simp
  | cons a as ih =>
    rw [List.filterMap_cons]
    rcases List.pairwise_cons.mp h with ⟨h1, h2⟩
    cases hfa : f a with
    | none => exact ih h2
    | some b =>
      rw [List.pairwise_cons]
      refine ⟨?_, ih h2⟩
      intro y hy
      obtain ⟨x, hx, hfx⟩ := List.mem_filterMap.mp hy
      exact h1 x hx b hfa y hfx

/-! ## Analysis of the writes a graph row receives in vectorize -/

theorem mem_pairsFrom_zero {len : Nat} {rc : Nat × Nat} :
    rc ∈ pairsFrom len 0 0 ↔ rc.1 < len ∧ rc.2 ≤ rc.1 := by
  rw [pairsFrom_zero, List.drop_zero]
  simp only [List.mem_flatten, List.mem_map, List.mem_range]
  constructor
  · rintro ⟨l, ⟨r, hr, rfl⟩, hrc⟩
    obtain ⟨c, hc, heq⟩ := List.mem_map.mp hrc
    rw [← heq]
    exact ⟨hr, by simpa using Nat.lt_succ_iff.mp (List.mem_range.mp hc)⟩
  · rintro ⟨h1, h2⟩
    exact ⟨(List.range (rc.1 + 1)).map (fun c => (rc.1, c)), ⟨rc.1, h1, rfl⟩,
      List.mem_map.mpr ⟨rc.2, List.mem_range.mpr (by omega), by simp⟩⟩

theorem pairsFrom_zero_nodup (len : Nat) : (pairsFrom len 0 0).Nodup := by
  rw [pairsFrom_zero, List.drop_zero, List.nodup_flatten]
  constructor
  · intro l hl
    obtain ⟨r, hr, rfl⟩ := List.mem_map.mp hl
    exact (List.nodup_range _).map (fun c1 c2 h => (Prod.mk.inj h).2)
  · rw [List.pairwise_map]
    apply List.Pairwise.imp ?_ ((List.nodup_range len) : (List.range len).Pairwise (· ≠ ·))
    intro r1 r2 hne p hp1 hp2
    obtain ⟨c1, hc1, he1⟩ := List.mem_map.mp hp1
    obtain ⟨c2, hc2, he2⟩ := List.mem_map.mp hp2
    exact hne (by rw [← (Prod.mk.inj (he1.trans he2.symm)).1])

theorem trie_getStr_inj {t : IndexTrie} (hWF : TrieWF t) {w1 w2 : List Nat} {r : Nat}
    (h1 : t.getStr w1 = some r) (h2 : t.getStr w2 = some r) : w1 = w2 := by
  have m1 := trie_getStr_some h1
  have m2 := trie_getStr_some h2
  rw [trie_getStr_of_mem hWF m1] at h1
  rw [trie_getStr_of_mem hWF m2] at h2
  have e1 := getElem?_idxOfStr m1
  have e2 := getElem?_idxOfStr m2
  rw [Option.some_inj.mp h1] at e1
  rw [Option.some_inj.mp h2] at e2
  exact Option.some_inj.mp (e1.symm.trans e2)

theorem label_of_getStr {E : Type} {g : AMGraph E} (hg : TrieWF g.map)
    {v : List Nat} {r : Nat} (h : g.map.getStr v = some r) : g.label r = v := by
  have hm := trie_getStr_some h
  rw [trie_getStr_of_mem hg hm] at h
  rw [AMGraph.label, trie_getIdx hg, ← Option.some_inj.mp h, getElem?_idxOfStr hm]
  rfl

theorem label_getStr {E : Type} {g : AMGraph E} (hg : TrieWF g.map) {r : Nat}
    (hr : r < g.map.len) : g.map.getStr (g.label r) = some r := by
  have hr' : r < (IndexTrie.strings g.map).length := by
    rw [← trie_len_eq hg]
    exact hr
  rw [AMGraph.label, trie_getIdx hg, List.getElem?_eq_getElem hr']
  show g.map.getStr (IndexTrie.strings g.map)[r] = some r
  have hmem : (IndexTrie.strings g.map)[r] ∈ IndexTrie.strings g.map :=
    List.getElem_mem hr'
  rw [trie_getStr_of_mem hg hmem,
    idxOfStr_getElem? (trie_strings_nodup hg) (List.getElem?_eq_getElem hr')]

theorem label_inj {E : Type} {g : AMGraph E} (hg : TrieWF g.map) {r1 r2 : Nat}
    (h1 : r1 < g.map.len) (h2 : r2 < g.map.len)
    (h : g.label r1 = g.label r2) : r1 = r2 := by
  have e1 := label_getStr (g := g) hg h1
  have e2 := label_getStr (g := g) hg h2
  rw [h, e2] at e1
  exact (Option.some_inj.mp e1).symm

theorem mem_edgesList {E : Type} {g : AMGraph E} {t : List Nat × List Nat × E} :
    t ∈ g.edgesList ↔ ∃ R C, C ≤ R ∧ R < g.map.len ∧
      (ltRead g.edges R C).getD none = some t.2.2 ∧
      t.1 = g.label R ∧ t.2.1 = g.label C := by
  rw [AMGraph.edgesList, edgesFrom_eq_filterMap, List.mem_filterMap]
  constructor
  · rintro ⟨rc, hrc, he⟩
    obtain ⟨h1, h2⟩ := mem_pairsFrom_zero.mp hrc
    simp only [edgeAt] at he
    obtain ⟨e, he1, rfl⟩ := Option.map_eq_some'.mp he
    exact ⟨rc.1, rc.2, h2, h1, he1, rfl, rfl⟩
  · rintro ⟨R, C, hCR, hR, hpres, h1, h2⟩
    refine ⟨(R, C), mem_pairsFrom_zero.mpr ⟨hR, hCR⟩, ?_⟩
    show ((ltRead g.edges R C).getD none).map (fun e => (g.label R, g.label C, e)) = some t
    rw [hpres]
    simp [← h1, ← h2]

theorem get_eq_ok {E : Type} {g : AMGraph E} {v1 v2 : List Nat} {a b : Nat}
    (h1 : g.map.getStr v1 = some a) (h2 : g.map.getStr v2 = some b) :
    g.get v1 v2 = .ok ((ltRead g.edges a b).getD none) := by
  rw [AMGraph.get, h1, h2]

theorem get_ok_elim {E : Type} {g : AMGraph E} {v1 v2 : List Nat} {o : Option E}
    (h : g.get v1 v2 = .ok o) :
    ∃ a b, g.map.getStr v1 = some a ∧ g.map.getStr v2 = some b ∧
      (ltRead g.edges a b).getD none = o := by
  rw [AMGraph.get] at h
  cases h1 : g.map.getStr v1 with
  | none => rw [h1] at h; exact absurd h (by simp)
  | some a =>
    cases h2 : g.map.getStr v2 with
    | none => rw [h1, h2] at h; exact absurd h (by simp)
    | some b =>
      rw [h1, h2] at h
      exact ⟨a, b, rfl, rfl, Except.ok.inj h⟩

theorem mem_writes_elim {E : Type} {g : AMGraph E} (hg : GraphWF g)
    {language : IndexTrie} {value : E → ℚ} {c : Nat} {q : ℚ}
    (h : (c, q) ∈ g.edgesList.filterMap (vecWrite language value)) :
    ∃ v1 v2 r1 r2 w, language.getStr v1 = some r1 ∧ language.getStr v2 = some r2 ∧
      g.get v1 v2 = .ok (some w) ∧ c = termIndicesToEdgeIndex r1 r2 ∧
      q = value w := by
  obtain ⟨t, ht, hw⟩ := List.mem_filterMap.mp h
  obtain ⟨i1, i2, hi1, hi2, hcv⟩ := (vecWrite_eq_some _ _ _ _).mp hw
  obtain ⟨R, C, hCR, hR, hpres, hl1, hl2⟩ := mem_edgesList.mp ht
  have h1 : g.map.getStr t.1 = some R := by
    rw [hl1]
    exact label_getStr hg.1 hR
  have h2 : g.map.getStr t.2.1 = some C := by
    rw [hl2]
    exact label_getStr hg.1 (lt_of_le_of_lt hCR hR)
  have hget : g.get t.1 t.2.1 = .ok (some t.2.2) := by
    rw [get_eq_ok h1 h2, hpres]
  obtain ⟨hc, hq⟩ := Prod.mk.inj hcv
  exact ⟨t.1, t.2.1, i1, i2, t.2.2, hi1, hi2, hget, hc, hq⟩

theorem mem_writes_intro {E : Type} {g : AMGraph E} (hg : GraphWF g)
    {language : IndexTrie} (value : E → ℚ)
    {v1 v2 : List Nat} {r1 r2 : Nat} {w : E}
    (h1 : language.getStr v1 = some r1) (h2 : language.getStr v2 = some r2)
    (hget : g.get v1 v2 = .ok (some w)) :
    (termIndicesToEdgeIndex r1 r2, value w) ∈
      g.edgesList.filterMap (vecWrite language value) := by
  obtain ⟨a, b, ha, hb, hslot⟩ := get_ok_elim hget
  have haL : a < g.map.len := trie_getStr_lt_len hg.1 ha
  have hbL : b < g.map.len := trie_getStr_lt_len hg.1 hb
  have hla : g.label a = v1 := label_of_getStr hg.1 ha
  have hlb : g.label b = v2 := label_of_getStr hg.1 hb
  apply List.mem_filterMap.mpr
  rcases le_total a b with hab | hba
  · refine ⟨(g.label b, g.label a, w), ?_, ?_⟩
    · apply mem_edgesList.mpr
      refine ⟨b, a, hab, hbL, ?_, rfl, rfl⟩
      show (g.edges[ltSlot b a]?).getD none = some w
      rw [ltSlot_comm b a]
      exact hslot
    · apply (vecWrite_eq_some _ _ _ _).mpr
      refine ⟨r2, r1, ?_, ?_, ?_⟩
      · show language.getStr (g.label b) = some r2
        rw [hlb]
        exact h2
      · show language.getStr (g.label a) = some r1
        rw [hla]
        exact h1
      · show (termIndicesToEdgeIndex r1 r2, value w) =
          (termIndicesToEdgeIndex r2 r1, value w)
        rw [termIndicesToEdgeIndex_comm r1 r2]
  · refine ⟨(g.label a, g.label b, w), ?_, ?_⟩
    · apply mem_edgesList.mpr
      exact ⟨a, b, hba, haL, hslot, rfl, rfl⟩
    · apply (vecWrite_eq_some _ _ _ _).mpr
      refine ⟨r1, r2, ?_, ?_, rfl⟩
      · show language.getStr (g.label a) = some r1
        rw [hla]
        exact h1
      · show language.getStr (g.label b) = some r2
        rw [hlb]
        exact h2

theorem writes_pairwise {E : Type} {g : AMGraph E} (hg : GraphWF g)
    {language : IndexTrie} (hlang : TrieWF language) (value : E → ℚ) :
    (g.edgesList.filterMap (vecWrite language value)).Pairwise
      (fun p1 p2 => p1.1 ≠ p2.1) := by
  rw [AMGraph.edgesList, edgesFrom_eq_filterMap, List.filterMap_filterMap]
  apply pairwise_filterMap_of
  refine List.Pairwise.imp_of_mem ?_
    ((pairsFrom_zero_nodup g.map.len) : (pairsFrom g.map.len 0 0).Pairwise (· ≠ ·))
  intro rc1 rc2 hm1 hm2 hne x hx y hy
  obtain ⟨hr1, hc1⟩ := mem_pairsFrom_zero.mp hm1
  obtain ⟨hr2, hc2⟩ := mem_pairsFrom_zero.mp hm2
  rw [Option.mem_def, Option.bind_eq_some] at hx hy
  obtain ⟨t1, het1, hw1⟩ := hx
  obtain ⟨t2, het2, hw2⟩ := hy
  simp only [edgeAt] at het1 het2
  obtain ⟨e1, hp1, hte1⟩ := Option.map_eq_some'.mp het1
  obtain ⟨e2, hp2, hte2⟩ := Option.map_eq_some'.mp het2
  subst hte1
  subst hte2
  obtain ⟨i1, i2, hi1, hi2, hx1⟩ := (vecWrite_eq_some _ _ _ _).mp hw1
  obtain ⟨j1, j2, hj1, hj2, hy1⟩ := (vecWrite_eq_some _ _ _ _).mp hw2
  dsimp only at hi1 hi2 hj1 hj2 hx1 hy1
  rw [hx1, hy1]
  show termIndicesToEdgeIndex i1 i2 ≠ termIndicesToEdgeIndex j1 j2
  intro heq
  rw [termIndicesToEdgeIndex_eq_ltSlot, termIndicesToEdgeIndex_eq_ltSlot,
    ltSlot_eq_maxmin i1 i2, ltSlot_eq_maxmin j1 j2] at heq
  obtain ⟨hmax, hmin⟩ := ltSlot_inj min_le_max min_le_max heq
  rcases (show (i1 = j1 ∧ i2 = j2) ∨ (i1 = j2 ∧ i2 = j1) by omega) with
    ⟨hA, hB⟩ | ⟨hA, hB⟩
  · rw [hA] at hi1
    rw [hB] at hi2
    have hL1 : g.label rc1.1 = g.label rc2.1 := trie_getStr_inj hlang hi1 hj1
    have hL2 : g.label rc1.2 = g.label rc2.2 := trie_getStr_inj hlang hi2 hj2
    have hR1 : rc1.1 = rc2.1 := label_inj hg.1 hr1 hr2 hL1
    have hR2 : rc1.2 = rc2.2 :=
      label_inj hg.1 (lt_of_le_of_lt hc1 hr1) (lt_of_le_of_lt hc2 hr2) hL2
    exact hne (Prod.ext hR1 hR2)
  · rw [hA] at hi1
    rw [hB] at hi2
    have hL1 : g.label rc1.1 = g.label rc2.2 := trie_getStr_inj hlang hi1 hj2
    have hL2 : g.label rc1.2 = g.label rc2.1 := trie_getStr_inj hlang hi2 hj1
    have hR1 : rc1.1 = rc2.2 := label_inj hg.1 hr1 (lt_of_le_of_lt hc2 hr2) hL1
    have hR2 : rc1.2 = rc2.1 := label_inj hg.1 (lt_of_le_of_lt hc1 hr1) hr2 hL2
    exact hne (Prod.ext (by omega) (by omega))

theorem languageOf_wf {E : Type} (graphs : List (AMGraph E)) :
    TrieWF (languageOf graphs) := by
  rw [languageOf]
  exact buildTrie_wf _

/-- C7: the feature matrix has one row per input graph, and for each graph the
row has one cell per unordered pair of shared-vocabulary ranks; the cell at
column termIndicesToEdgeIndex r1 r2 holds the converted weight of the graph's
present edge between the two labels of ranks r1 and r2 in the shared filtered
vocabulary, and every column no resolvable present edge maps to holds zero —
in particular an edge either of whose endpoints is missing from the shared
vocabulary contributes nothing. -/
theorem C7_vectorize {E : Type} (value : E → ℚ) (graphs : List (AMGraph E))
    (hWF : ∀ g ∈ graphs, GraphWF g) (p : Nat) (g : AMGraph E)
    (hp : graphs[p]? = some g) :
    (vectorize value graphs).length = graphs.length ∧
    ∃ row, (vectorize value graphs)[p]? = some row ∧
      row.length = (languageOf graphs).len * ((languageOf graphs).len + 1) / 2 ∧
      (∀ v1 v2 r1 r2 w, (languageOf graphs).getStr v1 = some r1 →
        (languageOf graphs).getStr v2 = some r2 →
        g.get v1 v2 = Except.ok (some w) →
        row[termIndicesToEdgeIndex r1 r2]? = some (value w)) ∧
      (∀ c, c < (languageOf graphs).len * ((languageOf graphs).len + 1) / 2 →
        (¬ ∃ v1 v2 r1 r2 w, (languageOf graphs).getStr v1 = some r1 ∧
          (languageOf graphs).getStr v2 = some r2 ∧
          g.get v1 v2 = Except.ok (some w) ∧ termIndicesToEdgeIndex r1 r2 = c) →
        row[c]? = some 0) := by
  have hlangWF : TrieWF (languageOf graphs) := languageOf_wf graphs
  have hg : GraphWF g := hWF g (List.getElem?_mem hp)
  constructor
  · simp [vectorize]
  · refine ⟨g.edgesList.foldl (vecStep (languageOf graphs) value)
      (List.replicate ((languageOf graphs).len * ((languageOf graphs).len + 1) / 2) 0),
      ?_, ?_, ?_, ?_⟩
    · simp only [vectorize]
      rw [List.getElem?_map, hp]
      rfl
    · rw [foldl_vecStep, foldl_set_length, List.length_replicate]
    · intro v1 v2 r1 r2 w h1 h2 hget
      rw [foldl_vecStep]
      apply foldl_set_mem _ _ _ _ (writes_pairwise hg hlangWF value)
        (mem_writes_intro hg value h1 h2 hget)
      rw [List.length_replicate, termIndicesToEdgeIndex_eq_ltSlot]
      exact ltSlot_lt_of_max
        (max_lt (trie_getStr_lt_len hlangWF h1) (trie_getStr_lt_len hlangWF h2))
    · intro c hc hno
      rw [foldl_vecStep, foldl_set_ne]
      · rw [List.getElem?_replicate, if_pos hc]
      · intro pr hpr heq
        obtain ⟨v1, v2, r1, r2, w, ha, hb, hcget, hceq, -⟩ :=
          mem_writes_elim hg (show (pr.1, pr.2) ∈ _ by rw [Prod.mk.eta]; exact hpr)
        exact hno ⟨v1, v2, r1, r2, w, ha, hb, hcget, by rw [← hceq]; exact heq⟩

theorem C7_witness :
    (vectorize (fun _ : Unit => (1 : ℚ))
        [AMGraph.new (E := Unit) (buildTrie [[2]])]).length =
      [AMGraph.new (E := Unit) (buildTrie [[2]])].length ∧
    ∃ row, (vectorize (fun _ : Unit => (1 : ℚ))
        [AMGraph.new (E := Unit) (buildTrie [[2]])])[0]? = some row ∧
      row.length = (languageOf [AMGraph.new (E := Unit) (buildTrie [[2]])]).len *
        ((languageOf [AMGraph.new (E := Unit) (buildTrie [[2]])]).len + 1) / 2 ∧
      (∀ v1 v2 r1 r2 w,
        (languageOf [AMGraph.new (E := Unit) (buildTrie [[2]])]).getStr v1 = some r1 →
        (languageOf [AMGraph.new (E := Unit) (buildTrie [[2]])]).getStr v2 = some r2 →
        (AMGraph.new (E := Unit) (buildTrie [[2]])).get v1 v2 = Except.ok (some w) →
        row[termIndicesToEdgeIndex r1 r2]? = some ((fun _ : Unit => (1 : ℚ)) w)) ∧
      (∀ c, c < (languageOf [AMGraph.new (E := Unit) (buildTrie [[2]])]).len *
          ((languageOf [AMGraph.new (E := Unit) (buildTrie [[2]])]).len + 1) / 2 →
        (¬ ∃ v1 v2 r1 r2 w,
          (languageOf [AMGraph.new (E := Unit) (buildTrie [[2]])]).getStr v1 = some r1 ∧
          (languageOf [AMGraph.new (E := Unit) (buildTrie [[2]])]).getStr v2 = some r2 ∧
          (AMGraph.new (E := Unit) (buildTrie [[2]])).get v1 v2 = Except.ok (some w) ∧
          termIndicesToEdgeIndex r1 r2 = c) →
        row[c]? = some 0) :=
  C7_vectorize (fun _ => 1) [AMGraph.new (buildTrie [[2]])]
    (by
      intro g hg
      rw [List.mem_singleton] at hg
      subst hg
      exact ⟨buildTrie_wf [[2]], by simp [AMGraph.new]⟩)
    0 (AMGraph.new (buildTrie [[2]])) rfl

/-! ## The k-means centroid update (src/clustering/kmeans.rs)

The centroid update of KMeans::cluster (the for_each over means): centroid i
becomes the element-wise sum of the data rows whose current cluster assignment
is i, divided by the total row count of the data matrix. The f32 arithmetic is
modelled over the rationals, and the parallel fold/reduce over an arbitrary
split is modelled as the sequential left fold of the same associative,
commutative element-wise addition from the same zero vector. -/

/-- The centroid recomputation for cluster i in one iteration of
KMeans::cluster: sum the assigned rows element-wise starting from a zero
vector of ncols entries, then divide every entry by rows, the total number of
data rows (cluster_map pairs each data row with its assigned cluster by
position). -/
def centroidUpdate (vectors : List (List ℚ)) (cluster_map : List Nat)
    (cols i : Nat) : List ℚ :=
  ((((vectors.zip cluster_map).filter (fun p => p.2 == i)).map Prod.fst).foldl
    (fun s v => List.zipWith (· + ·) s v) (List.replicate cols 0)).map
    (fun x => x / (vectors.length : ℚ))

theorem getD_zipWith_add {l1 l2 : List ℚ} {j : Nat}
    (h1 : j < l1.length) (h2 : j < l2.length) :
    (List.zipWith (· + ·) l1 l2).getD j 0 = l1.getD j 0 + l2.getD j 0 := by
  have hz : j < (List.zipWith (· + ·) l1 l2).length := by
    rw [List.length_zipWith]
    omega
  rw [List.getD_eq_getElem _ 0 hz, List.getD_eq_getElem _ 0 h1,
    List.getD_eq_getElem _ 0 h2, List.getElem_zipWith]

theorem foldl_zipWith_length (cols : Nat) :
    ∀ (vs : List (List ℚ)) (init : List ℚ), (∀ v ∈ vs, v.length = cols) →
      init.length = cols →
      (vs.foldl (fun s v => List.zipWith (· + ·) s v) init).length = cols
  | [], _, _, hinit => hinit
  | v :: vs, init, hvs, hinit => by
    rw [List.foldl_cons]
    exact foldl_zipWith_length cols vs _
      (fun u hu => hvs u (List.mem_cons_of_mem _ hu))
      (by
        rw [List.length_zipWith, hinit, hvs v (List.mem_cons_self _ _)]
        simp)

theorem foldl_zipWith_getElem {cols j : Nat} (hj : j < cols) :
    ∀ (vs : List (List ℚ)) (init : List ℚ), (∀ v ∈ vs, v.length = cols) →
      init.length = cols →
      (vs.foldl (fun s v => List.zipWith (· + ·) s v) init)[j]? =
        some (init.getD j 0 + (vs.map (fun v => v.getD j 0)).sum)
  | [], init, _, hinit => by
    rw [List.foldl_nil, List.map_nil, List.sum_nil, add_zero,
      List.getElem?_eq_getElem (by omega), List.getD_eq_getElem _ 0 (by omega)]
  | v :: vs, init, hvs, hinit => by
    have hv : v.length = cols := hvs v (List.mem_cons_self _ _)
    have hzlen : (List.zipWith (· + ·) init v).length = cols := by
      rw [List.length_zipWith, hinit, hv]
      simp
    rw [List.foldl_cons,
      foldl_zipWith_getElem hj vs _
        (fun u hu => hvs u (List.mem_cons_of_mem _ hu)) hzlen,
      getD_zipWith_add (by omega) (by omega), List.map_cons, List.sum_cons,
      add_assoc]

/-- C9: in each iteration the centroid of cluster i is recomputed as the
element-wise sum of the rows currently assigned to i divided by the total
number of data rows (not by the cluster's member count), and a cluster with no
assigned rows gets the plain zero vector — no special handling. -/
theorem C9_centroid_update (vectors : List (List ℚ)) (cluster_map : List Nat)
    (cols i : Nat) (hlen : ∀ v ∈ vectors, v.length = cols) :
    (centroidUpdate vectors cluster_map cols i).length = cols ∧
    (∀ j, j < cols →
      (centroidUpdate vectors cluster_map cols i)[j]? =
        some (((((vectors.zip cluster_map).filter (fun p => p.2 == i)).map
            Prod.fst).map (fun v => v.getD j 0)).sum /
          (vectors.length : ℚ))) ∧
    ((vectors.zip cluster_map).filter (fun p => p.2 == i) = [] →
      centroidUpdate vectors cluster_map cols i = List.replicate cols 0) := by
  have hrows : ∀ v ∈ ((vectors.zip cluster_map).filter
      (fun p => p.2 == i)).map Prod.fst, v.length = cols := by
    intro v hv
    obtain ⟨p, hp, rfl⟩ := List.mem_map.mp hv
    exact hlen p.1 (List.of_mem_zip (List.mem_of_mem_filter hp)).1
  have hinit : (List.replicate cols (0 : ℚ)).length = cols := by simp
  refine ⟨?_, ?_, ?_⟩
  · rw [centroidUpdate, List.length_map]
    exact foldl_zipWith_length cols _ _ hrows hinit
  · intro j hj
    rw [centroidUpdate, List.getElem?_map,
      foldl_zipWith_getElem hj _ _ hrows hinit,
      List.getD_eq_getElem _ 0 (by omega), List.getElem_replicate, zero_add]
    rfl
  · intro hempty
    rw [centroidUpdate, hempty, List.map_nil, List.foldl_nil, List.map_replicate,
      zero_div]

theorem C9_witness :
    (centroidUpdate [[1], [2], [3]] [0, 0, 1] 1 0).length = 1 ∧
    (∀ j, j < 1 →
      (centroidUpdate [[1], [2], [3]] [0, 0, 1] 1 0)[j]? =
        some (((((([[1], [2], [3]] : List (List ℚ)).zip [0, 0, 1]).filter
            (fun p => p.2 == 0)).map Prod.fst).map (fun v => v.getD j 0)).sum /
          (([[1], [2], [3]] : List (List ℚ)).length : ℚ))) ∧
    ((([[1], [2], [3]] : List (List ℚ)).zip [0, 0, 1]).filter
        (fun p => p.2 == 0) = [] →
      centroidUpdate [[1], [2], [3]] [0, 0, 1] 1 0 = List.replicate 1 0) :=
  C9_centroid_update [[1], [2], [3]] [0, 0, 1] 1 0
    (by
      intro v hv
      rcases List.mem_cons.mp hv with rfl | hv
      · rfl
      rcases List.mem_cons.mp hv with rfl | hv
      · rfl
      rcases List.mem_cons.mp hv with rfl | hv
      · rfl
      simp at hv)
